import Mathlib

set_option maxHeartbeats 1000000
set_option maxRecDepth 100000
set_option autoImplicit false
set_option linter.unreachableTactic false
set_option linter.unusedTactic false
set_option linter.unnecessarySimpa false

/-!
Verification of the two core data structures of the libds repository:
the appendable scatter/gather byte buffer (`ds_append_buffer`) and the
bounded asynchronous message queue (`ds_async_queue`).

The C code is shallowly embedded.  Pieces and buffers become Lean
structures, the doubly linked list of pieces becomes a Lean list (the
list stores the pieces in order; `ds_list_first` is the list head,
`ds_list_last` the last element, removing the prefix of entries yields
the corresponding list suffix).  32-bit `unsigned int` arithmetic is
modelled on `Nat` with explicit reduction modulo 2^32 (`wadd`/`wsub`)
wherever the C code adds or subtracts unsigned ints.  Allocation is
modelled by an oracle `Option Nat`: `none` means every malloc succeeds,
`some k` means the next `k` mallocs succeed and the following one fails;
within a single library call this captures every possible malloc
behaviour because each operation returns as soon as one allocation
fails.  Freshly malloc'd (uninitialised) bytes are modelled as zeros.
-/

namespace LibDS

/-- 2^32, the modulus of the C type `unsigned int`. -/
def U32 : Nat := 4294967296

/-- Addition of two `unsigned int` values (arguments already below 2^32). -/
def wadd (a b : Nat) : Nat := (a + b) % U32

/-- Subtraction of two `unsigned int` values with two's-complement wrap
(arguments already below 2^32). -/
def wsub (a b : Nat) : Nat := (a + U32 - b) % U32

/-- `DS_APPEND_BUFFER_PIECE_LEN` from the source: total piece budget. -/
def DS_APPEND_BUFFER_PIECE_LEN : Nat := 256

/-- `sizeof(struct ds_list_entry)`: two 64-bit pointers. -/
def sizeof_ds_list_entry : Nat := 16

/-- `DS_APPEND_BUFFER_PIECE_DATA_LEN = 256 - sizeof(struct ds_list_entry)
- sizeof(unsigned int)` = 236 bytes of payload per piece on a 64-bit
platform. -/
def DS_APPEND_BUFFER_PIECE_DATA_LEN : Nat :=
  DS_APPEND_BUFFER_PIECE_LEN - sizeof_ds_list_entry - 4

/-- `struct ds_append_buffer_piece`: a fixed 236-byte data array plus the
number of bytes in use.  `datalen` is stored in an `unsigned char` in the
source (`piece_datalen_t`). -/
structure Piece where
  data : List Nat
  datalen : Nat
deriving DecidableEq

/-- `struct ds_append_buffer`: ordered piece list plus the two scalars. -/
structure ds_append_buffer where
  list : List Piece
  length : Nat
  first_offset : Nat
deriving DecidableEq

/-- `ds_append_buffer_init`: empty list, zero length and offset. -/
def ds_append_buffer_init : ds_append_buffer := ⟨[], 0, 0⟩

/-- Loop of `ds_append_buffer_free`: every piece is unlinked in turn while
`length` is decreased by `datalen - first_offset` (unsigned int
arithmetic) and `first_offset` is cleared.  Returns the final
`(length, first_offset)` scalars. -/
def freeLoop : List Piece → Nat → Nat → Nat × Nat
  | [], len, fo => (len, fo)
  | p :: rest, len, fo => freeLoop rest (wsub len (wsub p.datalen fo)) 0

/-- `ds_append_buffer_free`. -/
def ds_append_buffer_free (buf : ds_append_buffer) : ds_append_buffer :=
  let r := freeLoop buf.list buf.length buf.first_offset
  ⟨[], r.1, r.2⟩

/-- `ds_append_buffer_move`: the destination takes the whole header, the
source is reinitialised.  Returns `(new, old)`. -/
def ds_append_buffer_move (old : ds_append_buffer) :
    ds_append_buffer × ds_append_buffer :=
  (old, ds_append_buffer_init)

/-- One malloc against the allocation oracle. -/
def allocStep : Option Nat → Bool × Option Nat
  | none => (true, none)
  | some 0 => (false, some 0)
  | some (k + 1) => (true, some k)

/-- Deep copy of one piece inside `ds_append_buffer_clone`: `memmove`
copies `datalen` bytes into the fresh allocation, the rest of the fresh
data array is uninitialised (modelled as zeros), and `datalen` is
copied. -/
def cloneOnePiece (p : Piece) : Piece :=
  ⟨p.data.take p.datalen ++
    List.replicate (DS_APPEND_BUFFER_PIECE_DATA_LEN - p.datalen) 0,
    p.datalen⟩

/-- Loop of `ds_append_buffer_clone`: pieces are deep-copied in order; on
allocation failure the function returns immediately with the pieces
cloned so far already attached to the destination. -/
def cloneLoop : List Piece → Option Nat → List Piece × Bool
  | [], _ => ([], true)
  | p :: rest, a =>
    match allocStep a with
    | (false, _) => ([], false)
    | (true, a') =>
      let r := cloneLoop rest a'
      (cloneOnePiece p :: r.1, r.2)

/-- `ds_append_buffer_clone`: the header (`length`, `first_offset`) is
copied first (`*new = *old`), the list is rebuilt piece by piece. -/
def ds_append_buffer_clone (old : ds_append_buffer) (a : Option Nat) :
    ds_append_buffer × Bool :=
  let r := cloneLoop old.list a
  (⟨r.1, old.length, old.first_offset⟩, r.2)

/-- `copy_to_append_buffer_piece`: copy as much of `buf` as fits into the
free tail of the piece; returns the updated piece and the number of bytes
copied.  `datalen ≤ 236` is an invariant of every well-formed piece; in
that range the natural subtraction used for `space_left` agrees with the
C unsigned arithmetic (beyond it the C `memmove` would write outside the
piece allocation, which is undefined behaviour). -/
def copy_to_append_buffer_piece (piece : Piece) (buf : List Nat) :
    Piece × Nat :=
  let space_left := DS_APPEND_BUFFER_PIECE_DATA_LEN - piece.datalen
  if buf.length ≤ space_left then
    (⟨piece.data.take piece.datalen ++ buf ++
        piece.data.drop (piece.datalen + buf.length),
      piece.datalen + buf.length⟩, buf.length)
  else
    (⟨piece.data.take piece.datalen ++ buf.take space_left ++
        piece.data.drop (piece.datalen + space_left),
      piece.datalen + space_left⟩, space_left)

/-- New-piece do-while loop of `ds_append_buffer_append`.  The loop
consumes at least one byte of the remaining input per iteration (a fresh
piece has 236 free bytes and the remaining input is non-empty), so fuel
equal to the length of the remaining input makes the fuelled recursion
exact at every call site. -/
def appendLoop : Nat → ds_append_buffer → List Nat → Option Nat → Nat →
    ds_append_buffer × Nat
  | 0, abuf, _, _, total => (abuf, total)
  | fuel + 1, abuf, buf, a, total =>
    match allocStep a with
    | (false, _) => (abuf, total)
    | (true, a') =>
      let pr := copy_to_append_buffer_piece
        ⟨List.replicate DS_APPEND_BUFFER_PIECE_DATA_LEN 0, 0⟩ buf
      let abuf' : ds_append_buffer :=
        ⟨abuf.list ++ [pr.1], wadd abuf.length pr.2, abuf.first_offset⟩
      if buf.length - pr.2 = 0 then (abuf', total + pr.2)
      else appendLoop fuel abuf' (buf.drop pr.2) a' (total + pr.2)

/-- `ds_append_buffer_append`: first fill the free tail of the last
piece, then allocate fresh pieces while input remains. -/
def ds_append_buffer_append (abuf : ds_append_buffer) (inbuf : List Nat)
    (a : Option Nat) : ds_append_buffer × Nat :=
  if inbuf.length = 0 then (abuf, 0)
  else
    match abuf.list.getLast? with
    | some last =>
      let pr := copy_to_append_buffer_piece last inbuf
      let abuf1 : ds_append_buffer :=
        ⟨abuf.list.dropLast ++ [pr.1], wadd abuf.length pr.2,
          abuf.first_offset⟩
      if inbuf.length - pr.2 = 0 then (abuf1, pr.2)
      else appendLoop (inbuf.length - pr.2) abuf1 (inbuf.drop pr.2) a pr.2
    | none => appendLoop inbuf.length abuf inbuf a 0

/-- `struct ds_append_buffer_iterator`.  `pcur` models `pchar`: `none` is
the NULL pointer, `some (p, rest)` a pointer into the data array of piece
`p`, with `rest` the pieces following `p` in the list (this is the
information the C code recovers with `container_of(pchar - ppos)` and
`entry.next`).  `poff` is the exact byte offset of `pchar` from the start
of the data array of `p`: pointer arithmetic is 64-bit and does not wrap
at 2^32, so `poff` can differ from the `unsigned int` field `ppos` after
a wrapping fast-path advance.  `ppos`, `pos`, `pmax` are the unsigned int
fields of the struct. -/
structure ds_append_buffer_iterator where
  pcur : Option (Piece × List Piece)
  poff : Nat
  ppos : Nat
  pos : Nat
  pmax : Nat
deriving DecidableEq

/-- `ds_append_buffer_iterator_init`. -/
def ds_append_buffer_iterator_init (abuf : ds_append_buffer) :
    ds_append_buffer_iterator :=
  if abuf.length = 0 then ⟨none, 0, abuf.first_offset, 0, 0⟩
  else
    match abuf.list with
    | [] => ⟨none, 0, abuf.first_offset, 0, 0⟩
    | p :: rest =>
      ⟨some (p, rest), abuf.first_offset, abuf.first_offset, 0, p.datalen⟩

/-- `__ds_append_buffer_iterator_forward`, the slow-path do-while loop
over the piece list. -/
def iterSlowLoop (piece : Piece) (rest : List Piece)
    (poff ppos pos pmax add : Nat) : ds_append_buffer_iterator :=
  let steps_left := wsub piece.datalen ppos
  if add < steps_left then
    ⟨some (piece, rest), poff + add, wadd ppos add, wadd pos add, pmax⟩
  else
    match rest with
    | [] => ⟨none, 0, 0, wadd pos steps_left, pmax⟩
    | q :: rest' =>
      if add - steps_left = 0 then
        ⟨some (q, rest'), 0, 0, wadd pos steps_left, q.datalen⟩
      else
        iterSlowLoop q rest' 0 0 (wadd pos steps_left) q.datalen
          (add - steps_left)

/-- `ds_append_buffer_iterator_forward`: inline fast path; the bound
check `ppos + add >= pmax` is unsigned int arithmetic and hence taken
modulo 2^32, while the pointer bump `pchar += add` is not. -/
def ds_append_buffer_iterator_forward (iter : ds_append_buffer_iterator)
    (add : Nat) : ds_append_buffer_iterator :=
  match iter.pcur with
  | none => iter
  | some (piece, rest) =>
    if add = 0 then iter
    else if iter.pmax ≤ wadd iter.ppos add then
      iterSlowLoop piece rest iter.poff iter.ppos iter.pos iter.pmax add
    else
      ⟨some (piece, rest), iter.poff + add, wadd iter.ppos add,
        wadd iter.pos add, iter.pmax⟩

/-- `ds_append_buffer_iterator_has_reached_end`: `pchar == NULL`. -/
def ds_append_buffer_iterator_has_reached_end
    (iter : ds_append_buffer_iterator) : Bool :=
  iter.pcur.isNone

/-- `ds_append_buffer_iterator_byte`: `*pchar`.  Dereferencing the NULL
or an out-of-piece pointer is undefined behaviour in C; the model
returns 0 there. -/
def ds_append_buffer_iterator_byte (iter : ds_append_buffer_iterator) :
    Nat :=
  match iter.pcur with
  | none => 0
  | some (p, _) => p.data.getD iter.poff 0

/-- `ds_append_buffer_iterator_pos`. -/
def ds_append_buffer_iterator_pos (iter : ds_append_buffer_iterator) :
    Nat :=
  iter.pos

/-- `ds_append_buffer_move_head`.  The `add < length` path positions an
iterator, frees every piece before the iterator's piece, and adopts the
in-piece offset.  When the iterator lands on no piece (impossible for a
well-formed buffer since `add < length`) the C code dereferences a
NULL-based `container_of`, which is undefined behaviour; the model
returns the buffer unchanged there. -/
def ds_append_buffer_move_head (abuf : ds_append_buffer) (add : Nat) :
    ds_append_buffer × Bool :=
  if add = abuf.length then (ds_append_buffer_free abuf, true)
  else if abuf.length < add then (ds_append_buffer_free abuf, false)
  else
    let iter := ds_append_buffer_iterator_forward
      (ds_append_buffer_iterator_init abuf) add
    match iter.pcur with
    | none => (abuf, true)
    | some (piece, rest) =>
      let abuf' : ds_append_buffer :=
        ⟨piece :: rest, abuf.length - add, iter.ppos⟩
      if abuf'.length = 0 ∧ abuf'.list ≠ [] then
        (ds_append_buffer_free abuf', true)
      else (abuf', true)

/-- `ds_append_buffer_append_piece`: fails iff the last piece has a free
tail; otherwise attaches the caller's piece, storing `buflen` into the
`unsigned char` field `datalen` (truncation modulo 256) and adding
`buflen` to `length`. -/
def ds_append_buffer_append_piece (abuf : ds_append_buffer)
    (piece : Piece) (buflen : Nat) : ds_append_buffer × Bool :=
  match abuf.list.getLast? with
  | some last =>
    if last.datalen < DS_APPEND_BUFFER_PIECE_DATA_LEN then (abuf, false)
    else
      (⟨abuf.list ++ [⟨piece.data, buflen % 256⟩], wadd abuf.length buflen,
        abuf.first_offset⟩, true)
  | none =>
    (⟨abuf.list ++ [⟨piece.data, buflen % 256⟩], wadd abuf.length buflen,
      abuf.first_offset⟩, true)

/-- `ds_append_buffer_move_end`: fails on an empty buffer or when `add`
exceeds the free tail of the last piece (`datalen ≤ 236` is an invariant
of well-formed pieces; in that range the natural subtraction agrees with
the C arithmetic). -/
def ds_append_buffer_move_end (abuf : ds_append_buffer) (add : Nat) :
    ds_append_buffer × Bool :=
  match abuf.list.getLast? with
  | none => (abuf, false)
  | some piece =>
    if DS_APPEND_BUFFER_PIECE_DATA_LEN - piece.datalen < add then
      (abuf, false)
    else
      (⟨abuf.list.dropLast ++ [⟨piece.data, piece.datalen + add⟩],
        wadd abuf.length add, abuf.first_offset⟩, true)

/-! ### The asynchronous message queue

A message is modelled by its payload bytes; `ds_message.data_length`
stores the original (unaligned) length, i.e. the length of that list.
The pending list is a Lean list, oldest message first.  Each operation
is modelled as the effect of its locked critical section; waits on the
condition variables can, for a single visit, only end by timeout
(`abstime = some _`, including the already-expired `{0,0}` sentinel) or
never (`abstime = none` with no other thread signalling), recorded as
`blocked`.  A push that is signalled awake and then succeeds appears in
a trace as a later, separate successful push step, which re-checks the
size guard under the mutex exactly as the C while loop does. -/

/-- `ASYNC_QUEUE_MAX_SIZE`. -/
def ASYNC_QUEUE_MAX_SIZE : Nat := 128

inductive PushResult where
  | ok | timedout | nomem | blocked
deriving DecidableEq

/-- Outcome of `ds_async_queue_push_timed`: return value, pending list,
and whether the mutex is still held by the caller when it returns. -/
structure PushOut where
  result : PushResult
  queue : List (List Nat)
  locked_at_return : Bool
deriving DecidableEq

/-- `ds_async_queue_push_timed`.  Note the `-ENOMEM` path returns without
unlocking the mutex. -/
def ds_async_queue_push_timed (q : List (List Nat)) (msg : List Nat)
    (allocOk : Bool) (abstime : Option (Nat × Nat)) : PushOut :=
  if ASYNC_QUEUE_MAX_SIZE ≤ q.length then
    match abstime with
    | none => ⟨.blocked, q, true⟩
    | some _ => ⟨.timedout, q, false⟩
  else if allocOk then ⟨.ok, q ++ [msg], false⟩
  else ⟨.nomem, q, true⟩

inductive PopResult where
  | ok | timedout | blocked
deriving DecidableEq

/-- Outcome of `ds_async_queue_pop_timed`: return value, pending list,
the payload pointer written to `*msg` and the length written to
`*msglen` (both cleared on entry). -/
structure PopOut where
  result : PopResult
  queue : List (List Nat)
  msg : Option (List Nat)
  msglen : Nat
deriving DecidableEq

/-- `ds_async_queue_pop_timed`: removes the first (oldest) message. -/
def ds_async_queue_pop_timed (q : List (List Nat))
    (abstime : Option (Nat × Nat)) : PopOut :=
  match q with
  | [] =>
    match abstime with
    | none => ⟨.blocked, [], none, 0⟩
    | some _ => ⟨.timedout, [], none, 0⟩
  | m :: rest => ⟨.ok, rest, some m, m.length⟩

/-! ### Semantic layer for the append buffer

`usedBytes` is the live payload of one piece, `piecesBytes` the
concatenation over a piece list, `contents` the live bytes of a buffer
(everything after `first_offset`).  `WF` is the well-formedness
invariant every buffer reachable through the public API (with non-empty
attached pieces) satisfies. -/

/-- Bytes in use of one piece. -/
def usedBytes (p : Piece) : List Nat := p.data.take p.datalen

/-- Concatenated used bytes of a piece list. -/
def piecesBytes : List Piece → List Nat
  | [] => []
  | p :: rest => usedBytes p ++ piecesBytes rest

/-- Sum of `datalen` over a piece list. -/
def sumUsed : List Piece → Nat
  | [] => 0
  | p :: rest => p.datalen + sumUsed rest

/-- Live bytes of a buffer, head byte first. -/
def contents (b : ds_append_buffer) : List Nat :=
  (piecesBytes b.list).drop b.first_offset

/-- Well-formed piece: full-capacity data array, non-empty and in-range
used count. -/
def WFpiece (p : Piece) : Prop :=
  p.data.length = DS_APPEND_BUFFER_PIECE_DATA_LEN ∧
  1 ≤ p.datalen ∧ p.datalen ≤ DS_APPEND_BUFFER_PIECE_DATA_LEN

/-- The head piece (if any) strictly exceeds `first_offset`. -/
def headOK (l : List Piece) (fo : Nat) : Prop :=
  ∀ p ∈ l.take 1, fo < p.datalen

/-- Buffer well-formedness: all pieces well formed, the length accounting
`first_offset + length = Σ datalen` holds without 32-bit overflow, the
offset is cleared on an empty list and falls inside the head piece
otherwise. -/
def WF (b : ds_append_buffer) : Prop :=
  (∀ p ∈ b.list, WFpiece p) ∧
  b.first_offset + b.length = sumUsed b.list ∧
  sumUsed b.list < U32 ∧
  (b.list = [] → b.first_offset = 0) ∧
  headOK b.list b.first_offset

instance (p : Piece) : Decidable (WFpiece p) := by
  unfold WFpiece; infer_instance

instance (b : ds_append_buffer) : Decidable (WF b) := by
  unfold WF WFpiece headOK; infer_instance

/-- Locate the piece containing global byte offset `n` of a piece list:
returns that piece, the pieces after it, and the in-piece offset. -/
def locate : List Piece → Nat → Option (Piece × List Piece × Nat)
  | [], _ => none
  | p :: rest, n =>
    if n < p.datalen then some (p, rest, n) else locate rest (n - p.datalen)

/-- The iterator `it` stands at logical position `n` of buffer `b`:
`pos` is `n`; for `n < length` the cached pointer designates the piece
containing global offset `first_offset + n` at the matching in-piece
offset with `pmax` caching that piece's `datalen`, and for `n = length`
the pointer is NULL. -/
def IterAt (b : ds_append_buffer) (n : Nat)
    (it : ds_append_buffer_iterator) : Prop :=
  it.pos = n ∧ n ≤ b.length ∧
  (if n < b.length then
    ∃ q rest' off,
      locate b.list (b.first_offset + n) = some (q, rest', off) ∧
      it.pcur = some (q, rest') ∧ it.poff = off ∧ it.ppos = off ∧
      it.pmax = q.datalen
  else it.pcur = none)

/-- Run the iteration loop `ds_append_buffer_for_each` for at most `fuel`
steps, collecting `(byte, pos)` at each visited position. -/
def iterPairs : Nat → ds_append_buffer_iterator → List (Nat × Nat)
  | 0, _ => []
  | fuel + 1, it =>
    if ds_append_buffer_iterator_has_reached_end it then []
    else
      (ds_append_buffer_iterator_byte it, ds_append_buffer_iterator_pos it) ::
        iterPairs fuel (ds_append_buffer_iterator_forward it 1)

/-- Buffers reachable from `init` by successful `append` (unlimited
allocation, so the full input is appended), successful `append_piece` of
a well-formed detached piece with `1 ≤ used ≤ 236`, successful
`move_end` and successful `move_head`, with the total stored bytes kept
below 2^32. -/
inductive Reachable : ds_append_buffer → Prop where
  | start : Reachable ds_append_buffer_init
  | append : ∀ b data, Reachable b →
      sumUsed b.list + data.length < U32 →
      Reachable (ds_append_buffer_append b data none).1
  | append_piece : ∀ b p used, Reachable b →
      p.data.length = DS_APPEND_BUFFER_PIECE_DATA_LEN →
      1 ≤ used → used ≤ DS_APPEND_BUFFER_PIECE_DATA_LEN →
      sumUsed b.list + used < U32 →
      (ds_append_buffer_append_piece b p used).2 = true →
      Reachable (ds_append_buffer_append_piece b p used).1
  | move_end : ∀ b add, Reachable b →
      sumUsed b.list + add < U32 →
      (ds_append_buffer_move_end b add).2 = true →
      Reachable (ds_append_buffer_move_end b add).1
  | move_head : ∀ b add, Reachable b →
      (ds_append_buffer_move_head b add).2 = true →
      Reachable (ds_append_buffer_move_head b add).1

/-! ### Semantic layer for the async queue -/

/-- One client call against the queue: the data a push offers together
with the malloc outcome and deadline, or a pop with its deadline. -/
inductive QOp where
  | push (msg : List Nat) (allocOk : Bool) (abstime : Option (Nat × Nat))
  | pop (abstime : Option (Nat × Nat))

/-- Trace bookkeeping: current pending list, all successfully pushed
messages in order, all successfully popped messages in order. -/
structure QTrace where
  queue : List (List Nat)
  pushed : List (List Nat)
  popped : List (List Nat)

/-- Run a sequence of queue operations. -/
def runOps : List QOp → QTrace → QTrace
  | [], st => st
  | QOp.push msg allocOk t :: rest, st =>
    let r := ds_async_queue_push_timed st.queue msg allocOk t
    runOps rest ⟨r.queue,
      if r.result = PushResult.ok then st.pushed ++ [msg] else st.pushed,
      st.popped⟩
  | QOp.pop t :: rest, st =>
    let r := ds_async_queue_pop_timed st.queue t
    runOps rest ⟨r.queue, st.pushed,
      match r.msg with
      | some m => st.popped ++ [m]
      | none => st.popped⟩

/-- One transition of the pending list: some thread completes a
`push_timed` or `pop_timed` critical section. -/
inductive QueueStep : List (List Nat) → List (List Nat) → Prop where
  | push : ∀ q msg allocOk t,
      QueueStep q (ds_async_queue_push_timed q msg allocOk t).queue
  | pop : ∀ q t, QueueStep q (ds_async_queue_pop_timed q t).queue

/-! ### Arithmetic lemmas for the 32-bit model -/

theorem wadd_eq {a b : Nat} (h : a + b < U32) : wadd a b = a + b :=
  Nat.mod_eq_of_lt h

theorem wsub_eq {a b : Nat} (hb : b ≤ a) (ha : a < U32) : wsub a b = a - b := by
  unfold wsub
  rw [show a + U32 - b = (a - b) + U32 by omega, Nat.add_mod_right]
  exact Nat.mod_eq_of_lt (by omega)

theorem cap_eq : DS_APPEND_BUFFER_PIECE_DATA_LEN = 236 := rfl

theorem cap_lt_u32 : DS_APPEND_BUFFER_PIECE_DATA_LEN < U32 := by
  rw [cap_eq]; unfold U32; omega

/-! ### Piece list lemmas -/

@[simp] theorem piecesBytes_nil : piecesBytes [] = [] := rfl

@[simp] theorem piecesBytes_cons (p : Piece) (l : List Piece) :
    piecesBytes (p :: l) = usedBytes p ++ piecesBytes l := rfl

@[simp] theorem sumUsed_nil : sumUsed [] = 0 := rfl

@[simp] theorem sumUsed_cons (p : Piece) (l : List Piece) :
    sumUsed (p :: l) = p.datalen + sumUsed l := rfl

theorem piecesBytes_append (l1 l2 : List Piece) :
    piecesBytes (l1 ++ l2) = piecesBytes l1 ++ piecesBytes l2 := by
  induction l1 with
  | nil => simp
  | cons p l ih => simp [ih]

theorem sumUsed_append (l1 l2 : List Piece) :
    sumUsed (l1 ++ l2) = sumUsed l1 + sumUsed l2 := by
  induction l1 with
  | nil => simp
  | cons p l ih => simp [ih]; omega

theorem usedBytes_length {p : Piece} (h : p.datalen ≤ p.data.length) :
    (usedBytes p).length = p.datalen := by
  simp [usedBytes]; omega

theorem piecesBytes_length {l : List Piece}
    (h : ∀ p ∈ l, p.datalen ≤ p.data.length) :
    (piecesBytes l).length = sumUsed l := by
  induction l with
  | nil => simp
  | cons p t ih =>
    simp [usedBytes_length (h p (by simp)),
      ih (fun q hq => h q (by simp [hq]))]

@[simp] theorem headOK_nil (fo : Nat) : headOK [] fo := by
  simp [headOK]

theorem headOK_cons {p : Piece} {l : List Piece} {fo : Nat} :
    headOK (p :: l) fo ↔ fo < p.datalen := by
  simp [headOK]

theorem getLast?_split {α : Type} {l : List α} {x : α}
    (h : l.getLast? = some x) : l = l.dropLast ++ [x] := by
  induction l with
  | nil => simp at h
  | cons a t ih =>
    cases t with
    | nil => simp_all
    | cons b u =>
      rw [List.getLast?_cons_cons] at h
      have := ih h
      simp only [List.dropLast_cons₂, List.cons_append]
      exact congrArg (a :: ·) this

/-! ### copy_to_append_buffer_piece specification -/

theorem copy_to_eq (piece : Piece) (buf : List Nat) :
    copy_to_append_buffer_piece piece buf =
      (⟨piece.data.take piece.datalen ++
          buf.take (min buf.length
            (DS_APPEND_BUFFER_PIECE_DATA_LEN - piece.datalen)) ++
          piece.data.drop (piece.datalen +
            min buf.length (DS_APPEND_BUFFER_PIECE_DATA_LEN - piece.datalen)),
        piece.datalen +
          min buf.length (DS_APPEND_BUFFER_PIECE_DATA_LEN - piece.datalen)⟩,
        min buf.length (DS_APPEND_BUFFER_PIECE_DATA_LEN - piece.datalen)) := by
  simp only [copy_to_append_buffer_piece]
  by_cases hc : buf.length ≤ DS_APPEND_BUFFER_PIECE_DATA_LEN - piece.datalen
  · rw [if_pos hc, Nat.min_eq_left hc, List.take_length]
  · rw [if_neg hc, Nat.min_eq_right (by omega)]

theorem copy_to_spec (piece : Piece) (buf : List Nat)
    (hlen : piece.data.length = DS_APPEND_BUFFER_PIECE_DATA_LEN)
    (hdl : piece.datalen ≤ DS_APPEND_BUFFER_PIECE_DATA_LEN) :
    (copy_to_append_buffer_piece piece buf).2 =
      min buf.length (DS_APPEND_BUFFER_PIECE_DATA_LEN - piece.datalen) ∧
    (copy_to_append_buffer_piece piece buf).1.datalen =
      piece.datalen + (copy_to_append_buffer_piece piece buf).2 ∧
    (copy_to_append_buffer_piece piece buf).1.data.length =
      DS_APPEND_BUFFER_PIECE_DATA_LEN ∧
    usedBytes (copy_to_append_buffer_piece piece buf).1 =
      usedBytes piece ++ buf.take (copy_to_append_buffer_piece piece buf).2 := by
  have htake : (piece.data.take piece.datalen).length = piece.datalen := by
    simp; omega
  rw [copy_to_eq]
  refine ⟨rfl, rfl, ?_, ?_⟩
  · simp only [List.length_append, List.length_take, List.length_drop, htake]
    omega
  · unfold usedBytes
    simp only
    rw [List.take_left' (by
      rw [List.length_append, htake, List.length_take,
        Nat.min_eq_left (Nat.min_le_left _ _)])]

/-! ### ds_append_buffer_append specification -/

theorem appendLoop_spec (fuel : Nat) :
    ∀ (abuf : ds_append_buffer) (buf : List Nat) (a : Option Nat)
      (total : Nat), buf.length ≤ fuel → 1 ≤ buf.length →
    ∃ m new,
      m ≤ buf.length ∧
      (appendLoop fuel abuf buf a total).1.list = abuf.list ++ new ∧
      (appendLoop fuel abuf buf a total).1.first_offset =
        abuf.first_offset ∧
      (appendLoop fuel abuf buf a total).2 = total + m ∧
      piecesBytes new = buf.take m ∧
      sumUsed new = m ∧
      (∀ p ∈ new, WFpiece p) ∧
      (abuf.length + m < U32 →
        (appendLoop fuel abuf buf a total).1.length = abuf.length + m) := by
  induction fuel with
  | zero => intro _ buf _ _ hf h1; omega
  | succ fuel ih =>
    intro abuf buf a total hf h1
    rcases hstep : allocStep a with ⟨ok, a'⟩
    cases ok
    · simp only [appendLoop, hstep]
      refine ⟨0, [], ?_, ?_, ?_, ?_, ?_, ?_, ?_, ?_⟩ <;>
        first
          | trivial
          | omega
          | simp
          | exact fun _ => rfl
    · have hcs := copy_to_spec
        ⟨List.replicate DS_APPEND_BUFFER_PIECE_DATA_LEN 0, 0⟩ buf
        (by simp) (by simp)
      set pr := copy_to_append_buffer_piece
        ⟨List.replicate DS_APPEND_BUFFER_PIECE_DATA_LEN 0, 0⟩ buf with hpr
      obtain ⟨h2, hdl2, hlen2, hub⟩ := hcs
      simp only [Nat.sub_zero, Nat.zero_add] at h2 hdl2
      have hub' : usedBytes pr.1 = buf.take pr.2 := by
        rw [hub]
        simp [usedBytes]
      have hnbuf : pr.2 ≤ buf.length := by
        rw [h2]; exact Nat.min_le_left _ _
      have hncap : pr.2 ≤ DS_APPEND_BUFFER_PIECE_DATA_LEN := by
        rw [h2]; exact Nat.min_le_right _ _
      have hn1 : 1 ≤ pr.2 := by
        rw [h2]
        exact Nat.le_min.mpr ⟨h1, by rw [cap_eq]; omega⟩
      have hwfp : WFpiece pr.1 := ⟨hlen2, by omega, by omega⟩
      simp only [appendLoop, hstep, ← hpr]
      by_cases hdone : buf.length - pr.2 = 0
      · simp only [if_pos hdone]
        refine ⟨pr.2, [pr.1], hnbuf, ?_, ?_, ?_, ?_, ?_, ?_, ?_⟩ <;>
          first
            | trivial
            | (intro p hp; simp at hp; simpa [hp] using hwfp)
            | (simp only [sumUsed_cons, sumUsed_nil, hdl2]; omega)
            | (simp [hub']; done)
            | (intro hU; exact wadd_eq hU)
      · simp only [if_neg hdone]
        obtain ⟨m', new', hm', hlist', hfo', htot', hpb', hsum', hwf', hL'⟩ :=
          ih ⟨abuf.list ++ [pr.1], wadd abuf.length pr.2, abuf.first_offset⟩
            (buf.drop pr.2) a' (total + pr.2)
            (by simp; omega) (by simp; omega)
        refine ⟨pr.2 + m', pr.1 :: new', ?_, ?_, ?_, ?_, ?_, ?_, ?_, ?_⟩
        · simp only [List.length_drop] at hm'; omega
        · rw [hlist']; simp
        · rw [hfo']
        · rw [htot']; omega
        · simp only [piecesBytes_cons, hub', hpb', ← List.take_add]
        · simp only [sumUsed_cons, hsum', hdl2]
        · intro p hp
          rcases List.mem_cons.mp hp with h | h
          · simpa [h] using hwfp
          · exact hwf' p h
        · intro hU
          have hU1 : abuf.length + pr.2 < U32 := by omega
          have hL2 := hL' (by
            show wadd abuf.length pr.2 + m' < U32
            rw [wadd_eq hU1]; omega)
          rw [hL2]
          show wadd abuf.length pr.2 + m' = abuf.length + (pr.2 + m')
          rw [wadd_eq hU1]
          omega

theorem headOK_append {x y : List Piece} {fo : Nat} (hx : x ≠ [])
    (h : headOK x fo) : headOK (x ++ y) fo := by
  cases x with
  | nil => exact absurd rfl hx
  | cons a t =>
    rw [List.cons_append]
    exact headOK_cons.mpr (headOK_cons.mp h)

/-- Full specification of `ds_append_buffer_append` over a buffer whose
pieces are well formed: the returned count is a bound on the input, the
head offset is untouched, the stored byte sequence is extended with
exactly the returned prefix of the input, the `datalen` accounting grows
by the returned count, piece well-formedness and the head invariant are
preserved, and (absent 32-bit overflow) `length` grows by the returned
count. -/
theorem ds_append_buffer_append_spec (abuf : ds_append_buffer)
    (inbuf : List Nat) (a : Option Nat) (bout : ds_append_buffer) (m : Nat)
    (hp : ∀ p ∈ abuf.list, WFpiece p)
    (he : ds_append_buffer_append abuf inbuf a = (bout, m)) :
    m ≤ inbuf.length ∧
    bout.first_offset = abuf.first_offset ∧
    piecesBytes bout.list = piecesBytes abuf.list ++ inbuf.take m ∧
    sumUsed bout.list = sumUsed abuf.list + m ∧
    (∀ p ∈ bout.list, WFpiece p) ∧
    ((abuf.list = [] → abuf.first_offset = 0) →
      headOK abuf.list abuf.first_offset →
      headOK bout.list abuf.first_offset) ∧
    (abuf.length + m < U32 → bout.length = abuf.length + m) := by
  by_cases h0 : inbuf.length = 0
  · rw [show ds_append_buffer_append abuf inbuf a = (abuf, 0) by
      simp only [ds_append_buffer_append, if_pos h0]] at he
    rw [Prod.ext_iff] at he
    obtain ⟨he1, he2⟩ := he
    subst he1
    subst he2
    refine ⟨by omega, rfl, by simp [h0, List.length_eq_zero.mp h0], by simp,
      hp, fun _ h => h, fun _ => rfl⟩
  · cases hl : abuf.list.getLast? with
    | none =>
      have hemp : abuf.list = [] := by
        cases hll : abuf.list with
        | nil => rfl
        | cons x t => rw [hll] at hl; simp [List.getLast?_concat] at hl
      rw [show ds_append_buffer_append abuf inbuf a =
          appendLoop inbuf.length abuf inbuf a 0 by
        simp only [ds_append_buffer_append, if_neg h0, hl]] at he
      obtain ⟨m', new', hm', hlist', hfo', htot', hpb', hsum', hwf', hL'⟩ :=
        appendLoop_spec inbuf.length abuf inbuf a 0 (le_refl _) (by omega)
      rw [he] at hlist' hfo' htot' hL'
      simp only at hlist' hfo' htot' hL'
      have hmm : m = m' := by omega
      subst hmm
      rw [hemp] at hlist'
      simp only [List.nil_append] at hlist'
      refine ⟨hm', hfo', ?_, ?_, ?_, ?_, hL'⟩
      · rw [hlist', hemp, hpb']
        simp
      · rw [hlist', hemp, hsum']
        simp
      · rw [hlist']
        exact hwf'
      · intro hnil _
        rw [hlist', hnil hemp]
        intro p hpp
        have hmem : p ∈ new' := List.mem_of_mem_take hpp
        exact Nat.lt_of_lt_of_le Nat.zero_lt_one (hwf' p hmem).2.1
    | some last =>
      have hsplit : abuf.list = abuf.list.dropLast ++ [last] :=
        getLast?_split hl
      have hlast_mem : last ∈ abuf.list := by
        rw [hsplit]; exact List.mem_append_right _ (by simp)
      have hlast_wf := hp last hlast_mem
      have hcs := copy_to_spec last inbuf hlast_wf.1 hlast_wf.2.2
      set pr := copy_to_append_buffer_piece last inbuf with hpr
      rw [show ds_append_buffer_append abuf inbuf a =
          (if inbuf.length - pr.2 = 0 then
            (⟨abuf.list.dropLast ++ [pr.1], wadd abuf.length pr.2,
              abuf.first_offset⟩, pr.2)
          else
            appendLoop (inbuf.length - pr.2)
              ⟨abuf.list.dropLast ++ [pr.1], wadd abuf.length pr.2,
                abuf.first_offset⟩
              (inbuf.drop pr.2) a pr.2) by
        simp only [ds_append_buffer_append, if_neg h0, hl, ← hpr]] at he
      obtain ⟨h2, hdl2, hlen2, hub⟩ := hcs
      have hnbuf : pr.2 ≤ inbuf.length := by
        rw [h2]; exact Nat.min_le_left _ _
      have hncap : pr.2 ≤ DS_APPEND_BUFFER_PIECE_DATA_LEN - last.datalen := by
        rw [h2]; exact Nat.min_le_right _ _
      have hwfpr : WFpiece pr.1 := by
        have h1l := hlast_wf.2.1
        have h2l := hlast_wf.2.2
        refine ⟨hlen2, ?_, ?_⟩ <;> rw [hdl2] <;> omega
      have hpb1 : piecesBytes (abuf.list.dropLast ++ [pr.1]) =
          piecesBytes abuf.list ++ inbuf.take pr.2 := by
        conv_rhs => rw [hsplit]
        rw [piecesBytes_append, piecesBytes_append]
        simp [hub]
      have hsum1 : sumUsed (abuf.list.dropLast ++ [pr.1]) =
          sumUsed abuf.list + pr.2 := by
        conv_rhs => rw [hsplit]
        rw [sumUsed_append, sumUsed_append]
        simp [hdl2]
        omega
      have hwf1 : ∀ p ∈ abuf.list.dropLast ++ [pr.1], WFpiece p := by
        intro p hpp
        rcases List.mem_append.mp hpp with h | h
        · exact hp p (by rw [hsplit]; exact List.mem_append_left _ h)
        · simp at h
          rw [h]
          exact hwfpr
      have hhead1 : headOK abuf.list abuf.first_offset →
          headOK (abuf.list.dropLast ++ [pr.1]) abuf.first_offset := by
        intro hh
        cases hdl : abuf.list.dropLast with
        | nil =>
          simp only [hdl, List.nil_append]
          rw [headOK_cons]
          have : abuf.list = [last] := by rw [hsplit, hdl]; rfl
          rw [this, headOK_cons] at hh
          omega
        | cons d t =>
          rw [← hdl]
          apply headOK_append (by rw [hdl]; simp)
          have : headOK (abuf.list.dropLast ++ [last]) abuf.first_offset := by
            rw [← hsplit]; exact hh
          rw [hdl] at this ⊢
          rw [List.cons_append, headOK_cons] at this
          exact headOK_cons.mpr this
      by_cases hdone : inbuf.length - pr.2 = 0
      · rw [if_pos hdone] at he
        rw [Prod.ext_iff] at he
        obtain ⟨he1, he2⟩ := he
        subst he1
        subst he2
        exact ⟨hnbuf, rfl, hpb1, hsum1, hwf1, fun _ hh => hhead1 hh,
          fun hU => wadd_eq hU⟩
      · rw [if_neg hdone] at he
        obtain ⟨m', new', hm', hlist', hfo', htot', hpb', hsum', hwf', hL'⟩ :=
          appendLoop_spec (inbuf.length - pr.2)
            ⟨abuf.list.dropLast ++ [pr.1], wadd abuf.length pr.2,
              abuf.first_offset⟩
            (inbuf.drop pr.2) a pr.2 (by simp) (by simp; omega)
        rw [he] at hlist' hfo' htot' hL'
        simp only [List.length_drop] at hm'
        simp only at hlist' hfo' htot' hL'
        have hmm : m = pr.2 + m' := by omega
        subst hmm
        refine ⟨by omega, hfo', ?_, ?_, ?_, ?_, ?_⟩
        · rw [hlist', piecesBytes_append, hpb1, hpb', List.append_assoc,
            ← List.take_add]
        · rw [hlist', sumUsed_append, hsum1, hsum']
          omega
        · intro p hpp
          rw [hlist'] at hpp
          rcases List.mem_append.mp hpp with h | h
          · exact hwf1 p h
          · exact hwf' p h
        · intro hnil hh
          rw [hlist']
          exact headOK_append (by simp) (hhead1 hh)
        · intro hU
          have hU1 : abuf.length + pr.2 < U32 := by omega
          have hL2 := hL' (by
            show wadd abuf.length pr.2 + m' < U32
            rw [wadd_eq hU1]; omega)
          rw [hL2]
          show wadd abuf.length pr.2 + m' = abuf.length + (pr.2 + m')
          rw [wadd_eq hU1]
          omega

/-! ### ds_append_buffer_free specification -/

theorem freeLoop_spec : ∀ (l : List Piece) (len fo : Nat),
    fo + len = sumUsed l → sumUsed l < U32 →
    (∀ p ∈ l.take 1, fo ≤ p.datalen) → freeLoop l len fo = (0, 0) := by
  intro l
  induction l with
  | nil =>
    intro len fo hacc _ _
    simp only [sumUsed_nil] at hacc
    have h1 : len = 0 := by omega
    have h2 : fo = 0 := by omega
    simp [freeLoop, h1, h2]
  | cons p rest ih =>
    intro len fo hacc hsum htake
    have hfo : fo ≤ p.datalen := htake p (by simp)
    simp only [sumUsed_cons] at hacc hsum
    have hd : p.datalen < U32 := by omega
    have hlen : len < U32 := by omega
    simp only [freeLoop]
    rw [wsub_eq hfo hd, wsub_eq (by omega) hlen]
    apply ih
    · omega
    · omega
    · intro q _; omega

/-- A well-formed buffer is reset to the initial state by
`ds_append_buffer_free`. -/
theorem free_eq_init (b : ds_append_buffer)
    (hacc : b.first_offset + b.length = sumUsed b.list)
    (hsum : sumUsed b.list < U32)
    (hh : ∀ p ∈ b.list.take 1, b.first_offset ≤ p.datalen) :
    ds_append_buffer_free b = ds_append_buffer_init := by
  simp only [ds_append_buffer_free,
    freeLoop_spec b.list b.length b.first_offset hacc hsum hh]
  rfl

theorem free_wf {b : ds_append_buffer} (h : WF b) :
    ds_append_buffer_free b = ds_append_buffer_init :=
  free_eq_init b h.2.1 h.2.2.1
    (fun p hp => le_of_lt (h.2.2.2.2 p hp))

theorem wf_init : WF ds_append_buffer_init := by
  constructor <;> simp [ds_append_buffer_init, U32, headOK]

/-! ### ds_append_buffer_append_piece case equations -/

theorem append_piece_fail {abuf : ds_append_buffer} {piece last : Piece}
    {buflen : Nat} (hl : abuf.list.getLast? = some last)
    (hfree : last.datalen < DS_APPEND_BUFFER_PIECE_DATA_LEN) :
    ds_append_buffer_append_piece abuf piece buflen = (abuf, false) := by
  simp only [ds_append_buffer_append_piece, hl, if_pos hfree]

theorem append_piece_ok_empty {abuf : ds_append_buffer} {piece : Piece}
    {buflen : Nat} (hl : abuf.list.getLast? = none) :
    ds_append_buffer_append_piece abuf piece buflen =
      (⟨abuf.list ++ [⟨piece.data, buflen % 256⟩], wadd abuf.length buflen,
        abuf.first_offset⟩, true) := by
  simp only [ds_append_buffer_append_piece, hl]

theorem append_piece_ok_full {abuf : ds_append_buffer} {piece last : Piece}
    {buflen : Nat} (hl : abuf.list.getLast? = some last)
    (hfull : ¬last.datalen < DS_APPEND_BUFFER_PIECE_DATA_LEN) :
    ds_append_buffer_append_piece abuf piece buflen =
      (⟨abuf.list ++ [⟨piece.data, buflen % 256⟩], wadd abuf.length buflen,
        abuf.first_offset⟩, true) := by
  simp only [ds_append_buffer_append_piece, hl, if_neg hfull]

/-! ### ds_append_buffer_move_end case equations -/

theorem move_end_empty {abuf : ds_append_buffer} {add : Nat}
    (hl : abuf.list.getLast? = none) :
    ds_append_buffer_move_end abuf add = (abuf, false) := by
  simp only [ds_append_buffer_move_end, hl]

theorem move_end_fail {abuf : ds_append_buffer} {add : Nat} {last : Piece}
    (hl : abuf.list.getLast? = some last)
    (hbig : DS_APPEND_BUFFER_PIECE_DATA_LEN - last.datalen < add) :
    ds_append_buffer_move_end abuf add = (abuf, false) := by
  simp only [ds_append_buffer_move_end, hl, if_pos hbig]

theorem move_end_ok {abuf : ds_append_buffer} {add : Nat} {last : Piece}
    (hl : abuf.list.getLast? = some last)
    (hok : ¬DS_APPEND_BUFFER_PIECE_DATA_LEN - last.datalen < add) :
    ds_append_buffer_move_end abuf add =
      (⟨abuf.list.dropLast ++ [⟨last.data, last.datalen + add⟩],
        wadd abuf.length add, abuf.first_offset⟩, true) := by
  simp only [ds_append_buffer_move_end, hl, if_neg hok]

/-! ### ds_append_buffer_clone specification -/

theorem cloneLoop_some : ∀ (l : List Piece) (f : Nat),
    cloneLoop l (some f) =
      if f < l.length then ((l.take f).map cloneOnePiece, false)
      else (l.map cloneOnePiece, true) := by
  intro l
  induction l with
  | nil => intro f; simp [cloneLoop]
  | cons p rest ih =>
    intro f
    cases f with
    | zero => simp [cloneLoop, allocStep]
    | succ f =>
      simp only [cloneLoop, allocStep, ih rest.length.succ, ih f]
      by_cases hf : f < rest.length
      · rw [if_pos hf, if_pos (by simp; omega)]
        simp
      · rw [if_neg hf, if_neg (by simp; omega)]
        simp

theorem cloneLoop_none : ∀ l : List Piece,
    cloneLoop l none = (l.map cloneOnePiece, true) := by
  intro l
  induction l with
  | nil => simp [cloneLoop]
  | cons p rest ih => simp [cloneLoop, allocStep, ih]

theorem clone_some_fail (old : ds_append_buffer) (f : Nat)
    (hf : f < old.list.length) :
    ds_append_buffer_clone old (some f) =
      (⟨(old.list.take f).map cloneOnePiece, old.length, old.first_offset⟩,
        false) := by
  simp only [ds_append_buffer_clone, cloneLoop_some, if_pos hf]

theorem cloneOnePiece_datalen (p : Piece) :
    (cloneOnePiece p).datalen = p.datalen := rfl

theorem cloneOnePiece_usedBytes {p : Piece} (h : p.datalen ≤ p.data.length) :
    usedBytes (cloneOnePiece p) = usedBytes p := by
  unfold usedBytes cloneOnePiece
  simp only
  rw [List.take_left' (by simp; omega)]

theorem cloneOnePiece_dataLength {p : Piece}
    (h : p.data.length = DS_APPEND_BUFFER_PIECE_DATA_LEN)
    (h2 : p.datalen ≤ DS_APPEND_BUFFER_PIECE_DATA_LEN) :
    (cloneOnePiece p).data.length = DS_APPEND_BUFFER_PIECE_DATA_LEN := by
  unfold cloneOnePiece
  simp
  omega

theorem sumUsed_map_clone : ∀ l : List Piece,
    sumUsed (l.map cloneOnePiece) = sumUsed l := by
  intro l
  induction l with
  | nil => simp
  | cons p rest ih => simp [ih, cloneOnePiece_datalen]

theorem piecesBytes_map_clone : ∀ l : List Piece,
    (∀ p ∈ l, p.datalen ≤ p.data.length) →
    piecesBytes (l.map cloneOnePiece) = piecesBytes l := by
  intro l
  induction l with
  | nil => intro _; simp
  | cons p rest ih =>
    intro h
    simp only [List.map_cons, piecesBytes_cons]
    rw [cloneOnePiece_usedBytes (h p (by simp)),
      ih (fun q hq => h q (by simp [hq]))]

/-! ### locate lemmas -/

theorem locate_characterize : ∀ (l : List Piece) (n : Nat) (q : Piece)
    (r : List Piece) (off : Nat), locate l n = some (q, r, off) →
    ∃ j, j < l.length ∧ l.drop j = q :: r ∧ sumUsed (l.take j) ≤ n ∧
      off = n - sumUsed (l.take j) ∧ off < q.datalen := by
  intro l
  induction l with
  | nil => intro n q r off h; simp [locate] at h
  | cons p rest ih =>
    intro n q r off h
    simp only [locate] at h
    by_cases hn : n < p.datalen
    · rw [if_pos hn] at h
      simp only [Option.some.injEq, Prod.mk.injEq] at h
      obtain ⟨rfl, rfl, rfl⟩ := h
      exact ⟨0, by simp, by simp, by simp, by simp, hn⟩
    · rw [if_neg hn] at h
      obtain ⟨j, hj, hdrop, hle, hoff, hlt⟩ := ih (n - p.datalen) q r off h
      refine ⟨j + 1, by simpa using hj, by simpa using hdrop, ?_, ?_, hlt⟩
      · simp only [List.take_succ_cons, sumUsed_cons]
        omega
      · simp only [List.take_succ_cons, sumUsed_cons]
        omega

theorem locate_drop : ∀ (j : Nat) (l : List Piece) (n : Nat),
    sumUsed (l.take j) ≤ n →
    locate l n = locate (l.drop j) (n - sumUsed (l.take j)) := by
  intro j
  induction j with
  | zero => intro l n _; simp
  | succ j ih =>
    intro l n h
    cases l with
    | nil => simp
    | cons p rest =>
      simp only [List.take_succ_cons, sumUsed_cons] at h
      simp only [List.drop_succ_cons, List.take_succ_cons, sumUsed_cons]
      rw [show locate (p :: rest) n = locate rest (n - p.datalen) by
        simp only [locate]; rw [if_neg (by omega)]]
      rw [ih rest (n - p.datalen) (by omega)]
      congr 1
      omega

/-! ### Slow-path iterator walk specification -/

theorem iterSlowLoop_spec : ∀ (rest : List Piece) (piece : Piece)
    (ppos pos pmax add : Nat),
    ppos ≤ piece.datalen → piece.datalen < U32 →
    (∀ q ∈ rest, 1 ≤ q.datalen ∧ q.datalen < U32) →
    pos + (piece.datalen - ppos + sumUsed rest) < U32 →
    pmax = piece.datalen →
    ((add < piece.datalen - ppos + sumUsed rest →
      ∃ q rest' off,
        locate (piece :: rest) (ppos + add) = some (q, rest', off) ∧
        iterSlowLoop piece rest ppos ppos pos pmax add =
          ⟨some (q, rest'), off, off, pos + add, q.datalen⟩) ∧
     (piece.datalen - ppos + sumUsed rest ≤ add →
      (iterSlowLoop piece rest ppos ppos pos pmax add).pcur = none ∧
      (iterSlowLoop piece rest ppos ppos pos pmax add).poff = 0 ∧
      (iterSlowLoop piece rest ppos ppos pos pmax add).ppos = 0 ∧
      (iterSlowLoop piece rest ppos ppos pos pmax add).pos =
        pos + (piece.datalen - ppos + sumUsed rest))) := by
  intro rest
  induction rest with
  | nil =>
    intro piece ppos pos pmax add hpp hdU hrest hposU hpm
    have hsl : wsub piece.datalen ppos = piece.datalen - ppos :=
      wsub_eq hpp hdU
    simp only [sumUsed_nil, Nat.add_zero] at hposU ⊢
    constructor
    · intro hA
      refine ⟨piece, [], ppos + add, ?_, ?_⟩
      · simp only [locate]
        rw [if_pos (by omega)]
      · simp only [iterSlowLoop, hsl]
        rw [if_pos (by omega), wadd_eq (by omega), wadd_eq (by omega), hpm]
    · intro hB
      simp only [iterSlowLoop, hsl]
      rw [if_neg (by omega)]
      exact ⟨rfl, rfl, rfl, wadd_eq (by omega)⟩
  | cons q rest' ih =>
    intro piece ppos pos pmax add hpp hdU hrest hposU hpm
    have hq1 := (hrest q (by simp)).1
    have hqU := (hrest q (by simp)).2
    have hrest2 : ∀ r ∈ rest', 1 ≤ r.datalen ∧ r.datalen < U32 :=
      fun r hr => hrest r (by simp [hr])
    have hsl : wsub piece.datalen ppos = piece.datalen - ppos :=
      wsub_eq hpp hdU
    simp only [sumUsed_cons] at hposU
    by_cases hfirst : add < piece.datalen - ppos
    · constructor
      · intro hA
        refine ⟨piece, q :: rest', ppos + add, ?_, ?_⟩
        · simp only [locate]
          rw [if_pos (by omega)]
        · simp only [iterSlowLoop, hsl]
          rw [if_pos hfirst, wadd_eq (by omega), wadd_eq (by omega), hpm]
      · intro hB
        exfalso
        simp only [sumUsed_cons] at hB
        omega
    · simp only [iterSlowLoop, hsl]
      rw [if_neg hfirst]
      by_cases hzero : add - (piece.datalen - ppos) = 0
      · rw [if_pos hzero]
        constructor
        · intro hA
          refine ⟨q, rest', 0, ?_, ?_⟩
          · simp only [locate]
            rw [if_neg (by omega)]
            rw [if_pos (by omega),
              show ppos + add - piece.datalen = 0 from by omega]
          · rw [wadd_eq (by omega),
              show piece.datalen - ppos = add from by omega]
        · intro hB
          exfalso
          simp only [sumUsed_cons] at hB
          omega
      · rw [if_neg hzero]
        rw [wadd_eq (by omega)]
        have hrec := ih q 0 (pos + (piece.datalen - ppos)) q.datalen
          (add - (piece.datalen - ppos)) (by omega) hqU hrest2
          (by simp only [Nat.sub_zero]; omega) rfl
        constructor
        · intro hA
          simp only [sumUsed_cons] at hA
          obtain ⟨q2, rest2, off2, hloc2, heq2⟩ :=
            hrec.1 (by simp only [Nat.sub_zero]; omega)
          refine ⟨q2, rest2, off2, ?_, ?_⟩
          · simp only [locate]
            rw [if_neg (by omega)]
            rw [show ppos + add - piece.datalen =
              0 + (add - (piece.datalen - ppos)) from by omega]
            exact hloc2
          · rw [heq2, show pos + (piece.datalen - ppos) +
              (add - (piece.datalen - ppos)) = pos + add from by omega]
        · intro hB
          simp only [sumUsed_cons] at hB
          obtain ⟨hB1, hB2, hB3, hB4⟩ :=
            hrec.2 (by simp only [Nat.sub_zero]; omega)
          refine ⟨hB1, hB2, hB3, ?_⟩
          rw [hB4]
          simp only [Nat.sub_zero, sumUsed_cons]
          omega

/-! ### Iterator initialisation and forward on valid states -/

theorem length_lt_u32 {b : ds_append_buffer} (h : WF b) : b.length < U32 := by
  have h1 := h.2.1
  have h2 := h.2.2.1
  omega

theorem iterator_init_IterAt {b : ds_append_buffer} (hWF : WF b) :
    IterAt b 0 (ds_append_buffer_iterator_init b) := by
  unfold IterAt ds_append_buffer_iterator_init
  by_cases h0 : b.length = 0
  · rw [if_pos h0]
    refine ⟨rfl, by omega, ?_⟩
    rw [if_neg (by omega)]
  · rw [if_neg h0]
    cases hbl : b.list with
    | nil =>
      exfalso
      have := hWF.2.1
      rw [hbl] at this
      simp at this
      omega
    | cons p rest =>
      refine ⟨rfl, by omega, ?_⟩
      rw [if_pos (by omega)]
      refine ⟨p, rest, b.first_offset, ?_, rfl, rfl, rfl, rfl⟩
      have hfo : b.first_offset < p.datalen := by
        have := hWF.2.2.2.2
        rw [hbl] at this
        exact headOK_cons.mp this
      simp only [locate, Nat.add_zero]
      rw [if_pos hfo]

/-- Advancing a valid iterator by `k` when the unsigned fast-path sum
`ppos + k` does not wrap: either the advance stays within the live bytes
and yields the valid iterator at `n + k`, or the end is crossed, the
cached pointer becomes NULL and `pos` stops at `length`. -/
theorem IterAt_forward {b : ds_append_buffer} {n : Nat}
    {it : ds_append_buffer_iterator} (hWF : WF b) (hit : IterAt b n it)
    (k : Nat) (hk : it.ppos + k < U32) :
    (n + k ≤ b.length →
      IterAt b (n + k) (ds_append_buffer_iterator_forward it k)) ∧
    (b.length < n + k →
      (ds_append_buffer_iterator_forward it k).pcur = none ∧
      (ds_append_buffer_iterator_forward it k).pos = b.length) := by
  have hlenU : b.length < U32 := length_lt_u32 hWF
  obtain ⟨hpos, hnle, hcur⟩ := hit
  by_cases hn : n < b.length
  · rw [if_pos hn] at hcur
    obtain ⟨q, rest', off, hloc, hpc, hpoff, hppos, hpmax⟩ := hcur
    obtain ⟨j, hj, hdropj, hsumle, hoffeq, hofflt⟩ :=
      locate_characterize _ _ _ _ _ hloc
    have hsub : q :: rest' ⊆ b.list := by
      rw [← hdropj]; exact List.drop_subset _ _
    have hqWF : WFpiece q := hWF.1 q (hsub (by simp))
    have hqU : q.datalen < U32 :=
      lt_of_le_of_lt hqWF.2.2 cap_lt_u32
    have hrests : ∀ r ∈ rest', 1 ≤ r.datalen ∧ r.datalen < U32 := by
      intro r hr
      have := hWF.1 r (hsub (by simp [hr]))
      exact ⟨this.2.1, lt_of_le_of_lt this.2.2 cap_lt_u32⟩
    have hsum_split : sumUsed b.list =
        sumUsed (b.list.take j) + (q.datalen + sumUsed rest') := by
      conv_lhs => rw [← List.take_append_drop j b.list]
      rw [sumUsed_append, hdropj]
      simp
    have hacc := hWF.2.1
    have hsumU := hWF.2.2.1
    have hrem : q.datalen - off + sumUsed rest' = b.length - n := by
      omega
    have hred : ds_append_buffer_iterator_forward it k =
        (if k = 0 then it
        else if it.pmax ≤ wadd it.ppos k then
          iterSlowLoop q rest' it.poff it.ppos it.pos it.pmax k
        else ⟨some (q, rest'), it.poff + k, wadd it.ppos k,
          wadd it.pos k, it.pmax⟩) := by
      simp only [ds_append_buffer_iterator_forward, hpc]
    by_cases hk0 : k = 0
    · subst hk0
      rw [hred, if_pos rfl]
      constructor
      · intro _
        exact ⟨hpos, by omega, by
          rw [if_pos (by omega)]
          exact ⟨q, rest', off, hloc, hpc, hpoff, hppos, hpmax⟩⟩
      · intro habs
        omega
    · rw [hred, if_neg hk0]
      rw [hppos] at hk
      have hwa : wadd it.ppos k = off + k := by
        rw [hppos]; exact wadd_eq hk
      have hposU2 : n + (q.datalen - off + sumUsed rest') < U32 := by
        omega
      by_cases hfast : it.pmax ≤ off + k
      · rw [if_pos (by rw [hwa]; exact hfast)]
        rw [hpoff, hppos, hpos, hpmax]
        have hslow := iterSlowLoop_spec rest' q off n q.datalen k
          (le_of_lt hofflt) hqU hrests (by omega) rfl
        constructor
        · intro hle
          by_cases hend : n + k = b.length
          · obtain ⟨hB1, hB2, hB3, hB4⟩ := hslow.2 (by omega)
            refine ⟨?_, by omega, ?_⟩
            · rw [hB4]; omega
            · rw [if_neg (by omega)]
              exact hB1
          · obtain ⟨q2, rest2, off2, hloc2, heq2⟩ := hslow.1 (by omega)
            rw [heq2]
            refine ⟨?_, by omega, ?_⟩
            · rfl
            · rw [if_pos (by omega)]
              refine ⟨q2, rest2, off2, ?_, rfl, rfl, rfl, rfl⟩
              rw [locate_drop j b.list _ (by omega), hdropj,
                show b.first_offset + (n + k) - sumUsed (b.list.take j) =
                  off + k from by omega]
              exact hloc2
        · intro hgt
          obtain ⟨hB1, hB2, hB3, hB4⟩ := hslow.2 (by omega)
          refine ⟨hB1, ?_⟩
          rw [hB4]
          omega
      · rw [if_neg (by rw [hwa]; exact hfast)]
        rw [hpmax] at hfast
        have hin : off + k < q.datalen := by omega
        constructor
        · intro _
          refine ⟨?_, by omega, ?_⟩
          · simp only
            rw [hpos, wadd_eq (by omega)]
          · rw [if_pos (by omega)]
            refine ⟨q, rest', off + k, ?_, rfl, by rw [hpoff], ?_, ?_⟩
            · rw [locate_drop j b.list _ (by omega), hdropj,
                show b.first_offset + (n + k) - sumUsed (b.list.take j) =
                  off + k from by omega]
              simp only [locate]
              rw [if_pos hin]
            · simp only
              rw [hppos]
              exact wadd_eq hk
            · simp only
              rw [hpmax]
        · intro habs
          exfalso
          omega
  · have hneq : n = b.length := by omega
    rw [if_neg hn] at hcur
    have hfix : ds_append_buffer_iterator_forward it k = it := by
      simp only [ds_append_buffer_iterator_forward, hcur]
    rw [hfix]
    constructor
    · intro hle
      have hkz : k = 0 := by omega
      subst hkz
      refine ⟨by omega, by omega, ?_⟩
      rw [if_neg (by omega)]
      exact hcur
    · intro _
      exact ⟨hcur, by omega⟩

/-! ### move_head characterisation and well-formedness preservation -/

theorem init_ppos (b : ds_append_buffer) :
    (ds_append_buffer_iterator_init b).ppos = b.first_offset := by
  unfold ds_append_buffer_iterator_init
  by_cases h0 : b.length = 0
  · rw [if_pos h0]
  · rw [if_neg h0]
    cases b.list <;> rfl

/-- The `add < length` path of `move_head` on a well-formed buffer: the
iterator walk lands inside the piece containing global offset
`first_offset + add`; every piece before it is freed, the in-piece
offset becomes the new `first_offset`, and `length` drops by `add`. -/
theorem move_head_lt {b : ds_append_buffer} {add : Nat} (hWF : WF b)
    (hlt : add < b.length) :
    ∃ q rest' off j,
      locate b.list (b.first_offset + add) = some (q, rest', off) ∧
      b.list.drop j = q :: rest' ∧ j < b.list.length ∧
      sumUsed (b.list.take j) ≤ b.first_offset + add ∧
      off = b.first_offset + add - sumUsed (b.list.take j) ∧
      off < q.datalen ∧
      ds_append_buffer_move_head b add =
        (⟨q :: rest', b.length - add, off⟩, true) := by
  have hin := iterator_init_IterAt hWF
  have hk : (ds_append_buffer_iterator_init b).ppos + add < U32 := by
    rw [init_ppos]
    have h1 := hWF.2.1
    have h2 := hWF.2.2.1
    omega
  have hfwd := (IterAt_forward hWF hin add hk).1 (by omega)
  obtain ⟨hpos, hnle, hcur⟩ := hfwd
  rw [if_pos (by omega)] at hcur
  obtain ⟨q, rest', off, hloc, hpc, hpoff, hppos, hpmax⟩ := hcur
  obtain ⟨j, hj, hdropj, hsumle, hoffeq, hofflt⟩ :=
    locate_characterize _ _ _ _ _ hloc
  rw [show (0 : Nat) + add = add from by omega] at hsumle hoffeq hloc
  refine ⟨q, rest', off, j, hloc, hdropj, hj, hsumle, hoffeq, hofflt, ?_⟩
  have hcond : ¬((⟨q :: rest', b.length - add, off⟩ :
      ds_append_buffer).length = 0 ∧
      (⟨q :: rest', b.length - add, off⟩ : ds_append_buffer).list ≠ []) := by
    intro h
    have h1 : b.length - add = 0 := h.1
    omega
  simp only [ds_append_buffer_move_head, if_neg (show ¬add = b.length by
    omega), if_neg (show ¬b.length < add by omega), hpc, hppos,
    if_neg hcond]

theorem sumUsed_eq_zero {l : List Piece} (hwf : ∀ p ∈ l, WFpiece p)
    (h : sumUsed l = 0) : l = [] := by
  cases l with
  | nil => rfl
  | cons p t =>
    exfalso
    have h1 := (hwf p (by simp)).2.1
    simp only [sumUsed_cons] at h
    omega

theorem wf_move_head {b : ds_append_buffer} (add : Nat) (hWF : WF b) :
    WF (ds_append_buffer_move_head b add).1 := by
  by_cases h1 : add = b.length
  · rw [show ds_append_buffer_move_head b add =
      (ds_append_buffer_free b, true) by
        simp only [ds_append_buffer_move_head, if_pos h1], free_wf hWF]
    exact wf_init
  · by_cases h2 : b.length < add
    · rw [show ds_append_buffer_move_head b add =
        (ds_append_buffer_free b, false) by
          simp only [ds_append_buffer_move_head, if_neg h1, if_pos h2],
        free_wf hWF]
      exact wf_init
    · have hlt : add < b.length := by omega
      obtain ⟨q, rest', off, j, hloc, hdropj, hj, hsumle, hoffeq, hofflt,
        heq⟩ := move_head_lt hWF hlt
      rw [heq]
      have hsub : q :: rest' ⊆ b.list := by
        rw [← hdropj]; exact List.drop_subset _ _
      have hsum_split : sumUsed b.list =
          sumUsed (b.list.take j) + (q.datalen + sumUsed rest') := by
        conv_lhs => rw [← List.take_append_drop j b.list]
        rw [sumUsed_append, hdropj]
        simp
      have hacc := hWF.2.1
      have hsumU := hWF.2.2.1
      refine ⟨fun p hp => hWF.1 p (hsub hp), ?_, ?_, ?_, ?_⟩
      · simp only [sumUsed_cons]
        omega
      · simp only [sumUsed_cons]
        omega
      · intro h; cases h
      · exact headOK_cons.mpr hofflt

theorem wf_append {b : ds_append_buffer} {data : List Nat} {a : Option Nat}
    {bout : ds_append_buffer} {m : Nat} (hWF : WF b)
    (hsum : sumUsed b.list + data.length < U32)
    (he : ds_append_buffer_append b data a = (bout, m)) : WF bout := by
  obtain ⟨hm, hfo, hpb, hsum', hwf, hhead, hlen⟩ :=
    ds_append_buffer_append_spec b data a bout m hWF.1 he
  have hacc := hWF.2.1
  have hlen' := hlen (by omega)
  refine ⟨hwf, ?_, ?_, ?_, ?_⟩
  · rw [hfo, hsum', hlen']
    omega
  · rw [hsum']
    omega
  · intro hempty
    rw [hfo]
    apply hWF.2.2.2.1
    apply sumUsed_eq_zero hWF.1
    have : sumUsed bout.list = 0 := by rw [hempty]; rfl
    omega
  · rw [hfo]
    exact hhead hWF.2.2.2.1 hWF.2.2.2.2

theorem wf_append_piece {b : ds_append_buffer} {p : Piece} {used : Nat}
    (hWF : WF b) (hdata : p.data.length = DS_APPEND_BUFFER_PIECE_DATA_LEN)
    (h1 : 1 ≤ used) (h2 : used ≤ DS_APPEND_BUFFER_PIECE_DATA_LEN)
    (hsum : sumUsed b.list + used < U32) :
    WF (ds_append_buffer_append_piece b p used).1 := by
  have hmod : used % 256 = used := Nat.mod_eq_of_lt (by rw [cap_eq] at h2; omega)
  have hacc := hWF.2.1
  have hok : ∀ hempty : Bool, WF (⟨b.list ++ [⟨p.data, used % 256⟩],
      wadd b.length used, b.first_offset⟩ : ds_append_buffer) := by
    intro _
    have hwadd : wadd b.length used = b.length + used :=
      wadd_eq (by omega)
    refine ⟨?_, ?_, ?_, ?_, ?_⟩
    · intro r hr
      rcases List.mem_append.mp hr with h | h
      · exact hWF.1 r h
      · simp at h
        rw [h, hmod]
        exact ⟨hdata, h1, h2⟩
    · simp only [sumUsed_append, sumUsed_cons, sumUsed_nil, hmod, hwadd]
      omega
    · simp only [sumUsed_append, sumUsed_cons, sumUsed_nil, hmod]
      omega
    · intro h
      simp at h
    · cases hbl : b.list with
      | nil =>
        simp only [hbl, List.nil_append]
        rw [headOK_cons]
        have hfo0 : b.first_offset = 0 := hWF.2.2.2.1 hbl
        simp only [hfo0, hmod]
        omega
      | cons x t =>
        rw [← hbl]
        apply headOK_append (by rw [hbl]; simp)
        exact hWF.2.2.2.2
  cases hl : b.list.getLast? with
  | none => rw [append_piece_ok_empty hl]; exact hok true
  | some last =>
    by_cases hfree : last.datalen < DS_APPEND_BUFFER_PIECE_DATA_LEN
    · rw [append_piece_fail hl hfree]
      exact hWF
    · rw [append_piece_ok_full hl hfree]
      exact hok true

theorem wf_move_end {b : ds_append_buffer} (add : Nat) (hWF : WF b)
    (hsum : sumUsed b.list + add < U32) :
    WF (ds_append_buffer_move_end b add).1 := by
  cases hl : b.list.getLast? with
  | none => rw [move_end_empty hl]; exact hWF
  | some last =>
    by_cases hbig : DS_APPEND_BUFFER_PIECE_DATA_LEN - last.datalen < add
    · rw [move_end_fail hl hbig]
      exact hWF
    · rw [move_end_ok hl hbig]
      have hsplit : b.list = b.list.dropLast ++ [last] := getLast?_split hl
      have hlast_wf : WFpiece last := hWF.1 last (by
        rw [hsplit]; exact List.mem_append_right _ (by simp))
      have hacc := hWF.2.1
      have hsum_split : sumUsed b.list =
          sumUsed b.list.dropLast + last.datalen := by
        conv_lhs => rw [hsplit]
        simp [sumUsed_append]
      have hd1 := hlast_wf.2.1
      have hd2 := hlast_wf.2.2
      have hwadd : wadd b.length add = b.length + add := wadd_eq (by omega)
      refine ⟨?_, ?_, ?_, ?_, ?_⟩
      · intro r hr
        rcases List.mem_append.mp hr with h | h
        · exact hWF.1 r (by rw [hsplit]; exact List.mem_append_left _ h)
        · simp at h
          rw [h]
          exact ⟨hlast_wf.1,
            by show 1 ≤ last.datalen + add; omega,
            by show last.datalen + add ≤ DS_APPEND_BUFFER_PIECE_DATA_LEN
               omega⟩
      · simp only [sumUsed_append, sumUsed_cons, sumUsed_nil, hwadd]
        omega
      · simp only [sumUsed_append, sumUsed_cons, sumUsed_nil]
        omega
      · intro h
        simp at h
      · cases hdl : b.list.dropLast with
        | nil =>
          simp only [hdl, List.nil_append]
          rw [headOK_cons]
          have hone : b.list = [last] := by rw [hsplit, hdl]; rfl
          have := hWF.2.2.2.2
          rw [hone, headOK_cons] at this
          simp only
          omega
        | cons d t =>
          rw [← hdl]
          apply headOK_append (by rw [hdl]; simp)
          have hh := hWF.2.2.2.2
          rw [hsplit, hdl] at hh
          rw [hdl]
          rw [List.cons_append, headOK_cons] at hh
          exact headOK_cons.mpr hh

/-- Every buffer reachable through the restricted public operations is
well formed. -/
theorem Reachable_wf {b : ds_append_buffer} (h : Reachable b) : WF b := by
  induction h with
  | start => exact wf_init
  | append b data hr hsum ih => exact wf_append ih hsum rfl
  | append_piece b p used hr hdata h1 h2 hsum hsucc ih =>
    exact wf_append_piece ih hdata h1 h2 hsum
  | move_end b add hr hsum hsucc ih => exact wf_move_end add ih hsum
  | move_head b add hr hsucc ih => exact wf_move_head add ih

/-! ### Byte-exact iteration -/

theorem piecesWF_datalen_le {b : ds_append_buffer} (hWF : WF b) :
    ∀ p ∈ b.list, p.datalen ≤ p.data.length := by
  intro p hp
  have h := hWF.1 p hp
  rw [h.1]
  exact h.2.2

theorem contents_length {b : ds_append_buffer} (hWF : WF b) :
    (contents b).length = b.length := by
  unfold contents
  rw [List.length_drop, piecesBytes_length (piecesWF_datalen_le hWF)]
  have := hWF.2.1
  omega

theorem IterAt_ppos_small {b : ds_append_buffer} {n : Nat}
    {it : ds_append_buffer_iterator} (hWF : WF b) (hit : IterAt b n it)
    (hn : n < b.length) : it.ppos < DS_APPEND_BUFFER_PIECE_DATA_LEN := by
  obtain ⟨hpos, hnle, hcur⟩ := hit
  rw [if_pos hn] at hcur
  obtain ⟨q, rest', off, hloc, hpc, hpoff, hppos, hpmax⟩ := hcur
  obtain ⟨j, hj, hdropj, hsumle, hoffeq, hofflt⟩ :=
    locate_characterize _ _ _ _ _ hloc
  have hq : q ∈ b.list := by
    have hq0 : q ∈ b.list.drop j := by rw [hdropj]; simp
    exact List.drop_subset _ _ hq0
  have := (hWF.1 q hq).2.2
  rw [hppos]
  omega

/-- At a valid non-end position `n`, the iterator's byte is the live
byte at logical offset `n`, its position is `n`, and it has not
reached the end. -/
theorem IterAt_byte {b : ds_append_buffer} {n : Nat}
    {it : ds_append_buffer_iterator} (hWF : WF b) (hit : IterAt b n it)
    (hn : n < b.length) :
    ds_append_buffer_iterator_byte it = (contents b).getD n 0 ∧
    ds_append_buffer_iterator_pos it = n ∧
    ds_append_buffer_iterator_has_reached_end it = false := by
  obtain ⟨hpos, hnle, hcur⟩ := hit
  rw [if_pos hn] at hcur
  obtain ⟨q, rest', off, hloc, hpc, hpoff, hppos, hpmax⟩ := hcur
  obtain ⟨j, hj, hdropj, hsumle, hoffeq, hofflt⟩ :=
    locate_characterize _ _ _ _ _ hloc
  have hsub : q :: rest' ⊆ b.list := by
    rw [← hdropj]; exact List.drop_subset _ _
  have hqWF := hWF.1 q (hsub (by simp))
  have hTlen : (piecesBytes (b.list.take j)).length =
      sumUsed (b.list.take j) :=
    piecesBytes_length (fun p hp =>
      piecesWF_datalen_le hWF p (List.take_subset _ _ hp))
  have huq : (usedBytes q).length = q.datalen :=
    usedBytes_length (by rw [hqWF.1]; exact hqWF.2.2)
  have hsplitL : piecesBytes b.list = piecesBytes (b.list.take j) ++
      (usedBytes q ++ piecesBytes rest') := by
    conv_lhs => rw [← List.take_append_drop j b.list]
    rw [piecesBytes_append, hdropj, piecesBytes_cons]
  have hval : (contents b).getD n 0 = q.data.getD off 0 := by
    unfold contents
    rw [List.getD_eq_getElem?_getD, List.getElem?_drop, hsplitL,
      List.getElem?_append_right (by rw [hTlen]; omega)]
    rw [hTlen,
      show b.first_offset + n - sumUsed (b.list.take j) = off from by omega,
      List.getElem?_append_left (by rw [huq]; omega)]
    unfold usedBytes
    rw [List.getElem?_take_of_lt hofflt, ← List.getD_eq_getElem?_getD]
  refine ⟨?_, hpos, ?_⟩
  · unfold ds_append_buffer_iterator_byte
    rw [hpc, hpoff, hval]
  · unfold ds_append_buffer_iterator_has_reached_end
    rw [hpc]
    rfl

/-- Iterating from a valid position `n` with `cnt` bytes remaining
collects exactly the remaining live bytes paired with their absolute
positions. -/
theorem iterPairs_collect : ∀ (cnt : Nat) (b : ds_append_buffer) (n : Nat)
    (it : ds_append_buffer_iterator), WF b → IterAt b n it →
    n + cnt = b.length →
    iterPairs (cnt + 1) it =
      (List.range cnt).map (fun i => ((contents b).getD (n + i) 0, n + i)) := by
  intro cnt
  induction cnt with
  | zero =>
    intro b n it hWF hit hlen
    obtain ⟨hpos, hnle, hcur⟩ := hit
    rw [if_neg (by omega)] at hcur
    simp [iterPairs, ds_append_buffer_iterator_has_reached_end, hcur]
  | succ cnt ih =>
    intro b n it hWF hit hlen
    have hn : n < b.length := by omega
    obtain ⟨hbyte, hposv, hend⟩ := IterAt_byte hWF hit hn
    have hppos := IterAt_ppos_small hWF hit hn
    have hcap := cap_lt_u32
    have hfwd := (IterAt_forward hWF hit 1 (by omega)).1 (by omega)
    have hstep := ih b (n + 1) (ds_append_buffer_iterator_forward it 1)
      hWF hfwd (by omega)
    show (if ds_append_buffer_iterator_has_reached_end it = true then []
      else (ds_append_buffer_iterator_byte it,
        ds_append_buffer_iterator_pos it) ::
        iterPairs (cnt + 1) (ds_append_buffer_iterator_forward it 1)) = _
    rw [hend]
    simp only [Bool.false_eq_true, if_false]
    rw [hbyte, hposv, hstep, List.range_succ_eq_map, List.map_cons,
      List.map_map]
    congr 1
    apply List.map_congr_left
    intro i _
    show ((contents b).getD (n + 1 + i) 0, n + 1 + i) =
      ((contents b).getD (n + (i + 1)) 0, n + (i + 1))
    rw [show n + (i + 1) = n + 1 + i from by omega]

/-! ### Queue lemmas and claim theorems -/

/-- A queue transition never pushes the pending list past the bound. -/
theorem queueStep_bound {a b : List (List Nat)} (h : QueueStep a b)
    (ha : a.length ≤ ASYNC_QUEUE_MAX_SIZE) :
    b.length ≤ ASYNC_QUEUE_MAX_SIZE := by
  cases h with
  | push msg allocOk t =>
    unfold ds_async_queue_push_timed
    by_cases hc : ASYNC_QUEUE_MAX_SIZE ≤ a.length
    · rw [if_pos hc]
      cases t <;> simpa
    · rw [if_neg hc]
      cases allocOk
      · simpa
      · simp only [ASYNC_QUEUE_MAX_SIZE] at hc ⊢
        simp
        omega
  | pop t =>
    cases a with
    | nil => cases t <;> simp [ds_async_queue_pop_timed]
    | cons m rest =>
      simp only [ds_async_queue_pop_timed, List.length_cons] at ha ⊢
      omega

/-- Push on a full queue leaves the list unchanged and does not succeed. -/
theorem push_timed_full (q : List (List Nat)) (msg : List Nat)
    (allocOk : Bool) (t : Option (Nat × Nat))
    (h : ASYNC_QUEUE_MAX_SIZE ≤ q.length) :
    (ds_async_queue_push_timed q msg allocOk t).queue = q ∧
    (ds_async_queue_push_timed q msg allocOk t).result ≠ PushResult.ok := by
  unfold ds_async_queue_push_timed
  rw [if_pos h]
  cases t <;> simp

/-- Claim C4: in every state reachable from the freshly allocated (empty)
queue by any sequence of push/pop critical sections, the pending list
holds at most `ASYNC_QUEUE_MAX_SIZE = 128` messages; moreover
`push_timed` on a full queue appends nothing and does not return
success (it waits or times out). -/
theorem async_queue_size_bound :
    (∀ q : List (List Nat), Relation.ReflTransGen QueueStep [] q →
      q.length ≤ ASYNC_QUEUE_MAX_SIZE) ∧
    (∀ (q : List (List Nat)) (msg : List Nat) (allocOk : Bool)
        (t : Option (Nat × Nat)), ASYNC_QUEUE_MAX_SIZE ≤ q.length →
      (ds_async_queue_push_timed q msg allocOk t).queue = q ∧
      (ds_async_queue_push_timed q msg allocOk t).result ≠ PushResult.ok) := by
  constructor
  · intro q h
    induction h with
    | refl => simp [ASYNC_QUEUE_MAX_SIZE]
    | tail _ step ih => exact queueStep_bound step ih
  · intro q msg allocOk t h
    exact push_timed_full q msg allocOk t h

/-- Witness for C4 at the concrete empty trace. -/
theorem async_queue_size_bound_witness :
    ([] : List (List Nat)).length ≤ ASYNC_QUEUE_MAX_SIZE :=
  async_queue_size_bound.1 [] Relation.ReflTransGen.refl

/-- The trace invariant behind FIFO adequacy: popped messages followed by
the pending list always equal the pushed messages. -/
theorem runOps_inv : ∀ (ops : List QOp) (st : QTrace),
    st.popped ++ st.queue = st.pushed →
    (runOps ops st).popped ++ (runOps ops st).queue = (runOps ops st).pushed := by
  intro ops
  induction ops with
  | nil => intro st h; simpa [runOps] using h
  | cons op rest ih =>
    intro st h
    match op with
    | QOp.push msg allocOk t =>
      simp only [runOps]
      apply ih
      simp only
      unfold ds_async_queue_push_timed
      split
      · cases t <;> simp [h]
      · split
        · simp [← h, List.append_assoc]
        · simp [h]
    | QOp.pop t =>
      simp only [runOps]
      apply ih
      cases hq : st.queue with
      | nil =>
        cases t <;> simp [ds_async_queue_pop_timed, ← h, hq]
      | cons m tl =>
        simp only [ds_async_queue_pop_timed]
        rw [← h, hq]
        simp

/-- Claim C3: a successful pop removes and returns the oldest pending message
with its exact bytes and length; a push below the bound with a working
allocator appends exactly the offered bytes and succeeds; and along any
operation sequence from the empty queue the successfully popped messages
followed by the pending list equal the successfully pushed messages in
order — so pops return pushed messages byte-exactly and in FIFO push
order. -/
theorem async_queue_fifo :
    (∀ (m : List Nat) (rest : List (List Nat)) (t : Option (Nat × Nat)),
      ds_async_queue_pop_timed (m :: rest) t =
        ⟨PopResult.ok, rest, some m, m.length⟩) ∧
    (∀ (q : List (List Nat)) (msg : List Nat) (t : Option (Nat × Nat)),
      q.length < ASYNC_QUEUE_MAX_SIZE →
      ds_async_queue_push_timed q msg true t =
        ⟨PushResult.ok, q ++ [msg], false⟩) ∧
    (∀ ops : List QOp,
      (runOps ops ⟨[], [], []⟩).popped ++ (runOps ops ⟨[], [], []⟩).queue =
        (runOps ops ⟨[], [], []⟩).pushed ∧
      (runOps ops ⟨[], [], []⟩).pushed.take
          (runOps ops ⟨[], [], []⟩).popped.length =
        (runOps ops ⟨[], [], []⟩).popped) := by
  refine ⟨fun m rest t => rfl, fun q msg t h => ?_, fun ops => ?_⟩
  · unfold ds_async_queue_push_timed
    rw [if_neg (by omega), if_pos rfl]
  · have h := runOps_inv ops ⟨[], [], []⟩ (by simp)
    refine ⟨h, ?_⟩
    rw [← h]
    simp

/-- Witness for C3: a concrete below-bound push. -/
theorem async_queue_fifo_witness :
    ds_async_queue_push_timed [] [7, 8, 9] true none =
      ⟨PushResult.ok, [[7, 8, 9]], false⟩ :=
  async_queue_fifo.2.1 [] [7, 8, 9] none (by decide)

/-- Claim C9: when the capacity wait has finished (pending size below the
bound) and message allocation fails, `push_timed` returns `-ENOMEM`
with the pending list unchanged and the mutex still held at return. -/
theorem push_timed_nomem_keeps_mutex (q : List (List Nat)) (msg : List Nat)
    (t : Option (Nat × Nat)) (h : q.length < ASYNC_QUEUE_MAX_SIZE) :
    ds_async_queue_push_timed q msg false t =
      ⟨PushResult.nomem, q, true⟩ := by
  unfold ds_async_queue_push_timed
  rw [if_neg (by omega)]
  simp

/-- Witness for C9 at a concrete queue. -/
theorem push_timed_nomem_keeps_mutex_witness :
    ds_async_queue_push_timed [[1]] [2, 3] false (some (0, 0)) =
      ⟨PushResult.nomem, [[1]], true⟩ :=
  push_timed_nomem_keeps_mutex [[1]] [2, 3] (some (0, 0)) (by decide)

/-! ### Clone success preserves well-formedness -/

theorem clone_success_eq {b : ds_append_buffer} {a : Option Nat}
    (hs : (ds_append_buffer_clone b a).2 = true) :
    ds_append_buffer_clone b a =
      (⟨b.list.map cloneOnePiece, b.length, b.first_offset⟩, true) := by
  cases a with
  | none => simp only [ds_append_buffer_clone, cloneLoop_none]
  | some f =>
    by_cases hf : f < b.list.length
    · rw [clone_some_fail b f hf] at hs
      simp at hs
    · simp only [ds_append_buffer_clone, cloneLoop_some, if_neg hf]

theorem wf_clone {b : ds_append_buffer} {a : Option Nat} (hWF : WF b)
    (hs : (ds_append_buffer_clone b a).2 = true) :
    WF (ds_append_buffer_clone b a).1 := by
  rw [clone_success_eq hs]
  refine ⟨?_, ?_, ?_, ?_, ?_⟩
  · intro r hr
    obtain ⟨p, hp, rfl⟩ := List.mem_map.mp hr
    have hw := hWF.1 p hp
    exact ⟨cloneOnePiece_dataLength hw.1 hw.2.2,
      by rw [cloneOnePiece_datalen]; exact hw.2.1,
      by rw [cloneOnePiece_datalen]; exact hw.2.2⟩
  · simp only [sumUsed_map_clone]
    exact hWF.2.1
  · simp only [sumUsed_map_clone]
    exact hWF.2.2.1
  · intro h
    simp only [List.map_eq_nil_iff] at h
    exact hWF.2.2.2.1 h
  · cases hbl : b.list with
    | nil => simp [headOK]
    | cons p t =>
      simp only [List.map_cons]
      rw [headOK_cons, cloneOnePiece_datalen]
      have := hWF.2.2.2.2
      rw [hbl] at this
      exact headOK_cons.mp this

/-! ### Concrete fixture buffers for witnesses and counterexamples -/

/-- Three appended bytes in one piece. -/
def exampleBuf : ds_append_buffer :=
  (ds_append_buffer_append ds_append_buffer_init [5, 6, 7] none).1

/-- 300 appended bytes: two pieces (236 + 64). -/
def bigBuf : ds_append_buffer :=
  (ds_append_buffer_append ds_append_buffer_init
    (List.replicate 300 5) none).1

/-- Two appended bytes in one piece. -/
def twoBuf : ds_append_buffer :=
  (ds_append_buffer_append ds_append_buffer_init [3, 4] none).1

/-- One completely full piece of 236 appended bytes. -/
def fullBuf : ds_append_buffer :=
  (ds_append_buffer_append ds_append_buffer_init
    (List.replicate 236 7) none).1

/-- A detached piece as produced by `ds_append_buffer_new_piece` after the
caller wrote nines over it. -/
def ninePiece : Piece := ⟨List.replicate 236 9, 0⟩

/-- `fullBuf` with `ninePiece` attached via `append_piece` with
`used = 0` — a successful operation sequence. -/
def zeroTailBuf : ds_append_buffer :=
  (ds_append_buffer_append_piece fullBuf ninePiece 0).1

/-- A fresh detached piece holding ones. -/
def onesPiece : Piece := ⟨List.replicate 236 1, 0⟩

/-! ### Claim theorems -/

/-- Claim C1 (amended): for every AppendBuffer built by a sequence of
successful `append`, `append_piece` with `1 ≤ used ≤ 236`, `move_end`
and `move_head` operations keeping the stored bytes below 2^32,
iterating (`iterator_init`, then `iterator_forward` by 1 until
`iterator_has_reached_end`) yields exactly `length(b)` `(byte, pos)`
pairs: the k-th yielded byte is the live byte at logical offset `k` and
`iterator_pos` returns `k` there.  The fuel `length + 1` exceeds the
yield count by one, so the equality also shows the loop stops at
exactly `length` yields. -/
theorem append_buffer_iteration_fifo (b : ds_append_buffer)
    (h : Reachable b) :
    iterPairs (b.length + 1) (ds_append_buffer_iterator_init b) =
      (List.range b.length).map (fun k => ((contents b).getD k 0, k)) ∧
    (contents b).length = b.length := by
  have hWF := Reachable_wf h
  constructor
  · rw [iterPairs_collect b.length b 0 (ds_append_buffer_iterator_init b)
      hWF (iterator_init_IterAt hWF) (by omega)]
    apply List.map_congr_left
    intro i _
    rw [Nat.zero_add]
  · exact contents_length hWF

/-- Witness for C1 at a concrete three-byte reachable buffer. -/
theorem append_buffer_iteration_fifo_witness :
    iterPairs (exampleBuf.length + 1)
        (ds_append_buffer_iterator_init exampleBuf) =
      (List.range exampleBuf.length).map
        (fun k => ((contents exampleBuf).getD k 0, k)) ∧
    (contents exampleBuf).length = exampleBuf.length :=
  append_buffer_iteration_fifo exampleBuf
    (Reachable.append ds_append_buffer_init [5, 6, 7] Reachable.start
      (by decide))

/-- Counterexample to C1 as stated: a buffer built by a successful
`append` of 236 bytes followed by a successful `append_piece` with
`used = 0` has `length = 236`, but the iteration loop visits 237
positions before `iterator_has_reached_end` holds — the slow path parks
`pchar` at the start of the zero-used piece instead of NULL, so the
iteration yields one byte more than `length(b)`. -/
theorem claim1_counterexample :
    (ds_append_buffer_append ds_append_buffer_init
      (List.replicate 236 7) none).2 = 236 ∧
    (ds_append_buffer_append_piece fullBuf ninePiece 0).2 = true ∧
    zeroTailBuf.length = 236 ∧
    (iterPairs (zeroTailBuf.length + 1)
      (ds_append_buffer_iterator_init zeroTailBuf)).length = 237 := by
  refine ⟨by decide, by decide, by decide, by decide⟩

/-- Claim C2: `move_head(b, add)` on a well-formed buffer obeys the three
rules: `add = length` frees the whole buffer and returns true;
`add > length` also clears the buffer but returns false; `add < length`
returns true, drops `length` by `add`, frees exactly the pieces strictly
before the piece containing the new head, keeps the surviving pieces
unrewritten (the list becomes a suffix of the old list) and sets
`first_offset` to the in-piece offset of the new head. -/
theorem move_head_three_rules (b : ds_append_buffer) (add : Nat)
    (hWF : WF b) :
    (add = b.length →
      ds_append_buffer_move_head b add = (ds_append_buffer_init, true)) ∧
    (b.length < add →
      ds_append_buffer_move_head b add = (ds_append_buffer_init, false)) ∧
    (add < b.length →
      (ds_append_buffer_move_head b add).2 = true ∧
      (ds_append_buffer_move_head b add).1.length = b.length - add ∧
      ∃ j q rest', b.list.drop j = q :: rest' ∧
        (ds_append_buffer_move_head b add).1.list = b.list.drop j ∧
        sumUsed (b.list.take j) ≤ b.first_offset + add ∧
        (ds_append_buffer_move_head b add).1.first_offset =
          b.first_offset + add - sumUsed (b.list.take j) ∧
        (ds_append_buffer_move_head b add).1.first_offset < q.datalen) := by
  refine ⟨?_, ?_, ?_⟩
  · intro h
    rw [show ds_append_buffer_move_head b add =
      (ds_append_buffer_free b, true) by
        simp only [ds_append_buffer_move_head, if_pos h], free_wf hWF]
  · intro h
    rw [show ds_append_buffer_move_head b add =
      (ds_append_buffer_free b, false) by
        simp only [ds_append_buffer_move_head,
          if_neg (show ¬add = b.length by omega), if_pos h], free_wf hWF]
  · intro h
    obtain ⟨q, rest', off, j, hloc, hdropj, hj, hsumle, hoffeq, hofflt,
      heq⟩ := move_head_lt hWF h
    rw [heq]
    exact ⟨rfl, rfl, j, q, rest', hdropj, hdropj.symm, hsumle, hoffeq,
      hoffeq ▸ hofflt⟩

/-- Witness for C2 at a concrete three-byte buffer with `add = 1`. -/
theorem move_head_three_rules_witness :
    (ds_append_buffer_move_head exampleBuf 1).2 = true :=
  ((move_head_three_rules exampleBuf 1 (by decide)).2.2 (by decide)).1

/-- Claim C5 (amended): on well-formed buffers the externally observable
invariants hold — `length = 0` iff the piece list is empty, and the head
piece (when present) strictly exceeds `first_offset` — and every
operation preserves well-formedness: `free`, `move` (both buffers),
successful `clone`, `append` within the 2^32 byte budget, `append_piece`
of a full-capacity detached piece with `1 ≤ used ≤ 236`, `move_end`, and
`move_head` (the `used = 0` proviso on `append_piece` is forced by the
counterexample). -/
theorem append_buffer_invariants_preserved :
    (∀ b : ds_append_buffer, WF b →
      ((b.length = 0 ↔ b.list = []) ∧
        headOK b.list b.first_offset)) ∧
    (∀ b : ds_append_buffer, WF b → WF (ds_append_buffer_free b)) ∧
    (∀ b : ds_append_buffer, WF b →
      WF (ds_append_buffer_move b).1 ∧ WF (ds_append_buffer_move b).2) ∧
    (∀ (b : ds_append_buffer) (a : Option Nat), WF b →
      (ds_append_buffer_clone b a).2 = true →
      WF (ds_append_buffer_clone b a).1) ∧
    (∀ (b : ds_append_buffer) (data : List Nat) (a : Option Nat), WF b →
      sumUsed b.list + data.length < U32 →
      WF (ds_append_buffer_append b data a).1) ∧
    (∀ (b : ds_append_buffer) (p : Piece) (used : Nat), WF b →
      p.data.length = DS_APPEND_BUFFER_PIECE_DATA_LEN → 1 ≤ used →
      used ≤ DS_APPEND_BUFFER_PIECE_DATA_LEN →
      sumUsed b.list + used < U32 →
      WF (ds_append_buffer_append_piece b p used).1) ∧
    (∀ (b : ds_append_buffer) (add : Nat), WF b →
      sumUsed b.list + add < U32 →
      WF (ds_append_buffer_move_end b add).1) ∧
    (∀ (b : ds_append_buffer) (add : Nat), WF b →
      WF (ds_append_buffer_move_head b add).1) := by
  refine ⟨?_, ?_, ?_, ?_, ?_, ?_, ?_, ?_⟩
  · intro b hWF
    refine ⟨⟨?_, ?_⟩, hWF.2.2.2.2⟩
    · intro h0
      cases hbl : b.list with
      | nil => rfl
      | cons p t =>
        exfalso
        have hacc := hWF.2.1
        have hh := hWF.2.2.2.2
        rw [hbl, headOK_cons] at hh
        rw [hbl, sumUsed_cons] at hacc
        omega
    · intro h0
      have hacc := hWF.2.1
      rw [h0] at hacc
      simp only [sumUsed_nil] at hacc
      omega
  · intro b hWF
    rw [free_wf hWF]
    exact wf_init
  · intro b hWF
    exact ⟨hWF, wf_init⟩
  · intro b a hWF hs
    exact wf_clone hWF hs
  · intro b data a hWF hsum
    exact wf_append hWF hsum rfl
  · intro b p used hWF hdata h1 h2 hsum
    exact wf_append_piece hWF hdata h1 h2 hsum
  · intro b add hWF hsum
    exact wf_move_end add hWF hsum
  · intro b add hWF
    exact wf_move_head add hWF

/-- Witness for C5: the observable invariant at a concrete buffer. -/
theorem append_buffer_invariants_preserved_witness :
    (exampleBuf.length = 0 ↔ exampleBuf.list = []) ∧
    headOK exampleBuf.list exampleBuf.first_offset :=
  append_buffer_invariants_preserved.1 exampleBuf (by decide)

/-- Counterexample to C5 as stated: `append_piece` with `used = 0` on the
freshly initialised buffer succeeds and leaves `length = 0` with a
non-empty piece list — refuting `length = 0 ↔ list empty` as an
invariant of every operation. -/
theorem claim5_counterexample :
    (ds_append_buffer_append_piece ds_append_buffer_init ninePiece 0).2 =
      true ∧
    (ds_append_buffer_append_piece ds_append_buffer_init
      ninePiece 0).1.length = 0 ∧
    (ds_append_buffer_append_piece ds_append_buffer_init
      ninePiece 0).1.list ≠ [] := by
  refine ⟨by decide, by decide, by decide⟩

/-- Claim C6 (amended): when `clone(dst, src)` hits an allocation
failure after `f` successful piece allocations (`f` less than the piece
count), it returns false and leaves `dst` partially populated: the
header scalars are copied from `src` and the list holds clones of
exactly the first `f` pieces (byte-for-byte for well-formed pieces) —
the partial clone is not unwound. -/
theorem clone_failure_partial (old : ds_append_buffer) (f : Nat)
    (hwfp : ∀ p ∈ old.list, WFpiece p) (hf : f < old.list.length) :
    ds_append_buffer_clone old (some f) =
      (⟨(old.list.take f).map cloneOnePiece, old.length,
        old.first_offset⟩, false) ∧
    piecesBytes ((old.list.take f).map cloneOnePiece) =
      piecesBytes (old.list.take f) ∧
    ((old.list.take f).map cloneOnePiece).length = f := by
  refine ⟨clone_some_fail old f hf, ?_, ?_⟩
  · apply piecesBytes_map_clone
    intro p hp
    have hw := hwfp p (List.take_subset _ _ hp)
    rw [hw.1]
    exact hw.2.2
  · rw [List.length_map, List.length_take]
    omega

/-- Witness for C6 at a concrete two-piece buffer with one allocation
allowed. -/
theorem clone_failure_partial_witness :
    ds_append_buffer_clone bigBuf (some 1) =
      (⟨(bigBuf.list.take 1).map cloneOnePiece, bigBuf.length,
        bigBuf.first_offset⟩, false) ∧
    piecesBytes ((bigBuf.list.take 1).map cloneOnePiece) =
      piecesBytes (bigBuf.list.take 1) ∧
    ((bigBuf.list.take 1).map cloneOnePiece).length = 1 :=
  clone_failure_partial bigBuf 1 (by decide) (by decide)

/-- Counterexample to C6 as stated: cloning a two-piece buffer with the
second allocation failing returns false but leaves one cloned piece in
the destination — the partial clone is not freed. -/
theorem claim6_counterexample :
    bigBuf.list.length = 2 ∧
    (ds_append_buffer_clone bigBuf (some 1)).2 = false ∧
    (ds_append_buffer_clone bigBuf (some 1)).1.list.length = 1 := by
  refine ⟨by decide, by decide, by decide⟩

/-- Claim C7: `append_piece(b, p, used)` (with `used` within the piece
capacity and no 32-bit length overflow) returns false and leaves `b`
completely unchanged when the last piece has a non-zero free tail —
ownership of `p` stays with the caller since the result holds no new
piece — and otherwise (empty buffer or completely full last piece)
attaches `p` at the tail with `used_len = used`, adds `used` to
`length`, and returns true. -/
theorem append_piece_contract (b : ds_append_buffer) (p : Piece)
    (used : Nat) (hused : used ≤ DS_APPEND_BUFFER_PIECE_DATA_LEN)
    (hsum : b.length + used < U32) :
    (∀ last, b.list.getLast? = some last →
      last.datalen < DS_APPEND_BUFFER_PIECE_DATA_LEN →
      ds_append_buffer_append_piece b p used = (b, false)) ∧
    ((b.list = [] ∨ ∃ last, b.list.getLast? = some last ∧
        last.datalen = DS_APPEND_BUFFER_PIECE_DATA_LEN) →
      ds_append_buffer_append_piece b p used =
        (⟨b.list ++ [⟨p.data, used⟩], b.length + used,
          b.first_offset⟩, true)) := by
  have hmod : used % 256 = used :=
    Nat.mod_eq_of_lt (by rw [cap_eq] at hused; omega)
  constructor
  · intro last hl hfree
    exact append_piece_fail hl hfree
  · intro hd
    rcases hd with h | ⟨last, hl, hfull⟩
    · rw [append_piece_ok_empty (by rw [h]; rfl), hmod,
        wadd_eq hsum]
    · rw [append_piece_ok_full hl (by omega), hmod, wadd_eq hsum]

/-- Witness for C7: attaching a caller piece to the empty buffer. -/
theorem append_piece_contract_witness :
    ds_append_buffer_append_piece ds_append_buffer_init onesPiece 7 =
      (⟨ds_append_buffer_init.list ++ [⟨onesPiece.data, 7⟩],
        ds_append_buffer_init.length + 7,
        ds_append_buffer_init.first_offset⟩, true) :=
  (append_piece_contract ds_append_buffer_init onesPiece 7 (by decide)
    (by decide)).2 (Or.inl rfl)

/-- Claim C8 (amended): for a valid iterator at position `n` of a
well-formed buffer and an advance count `k` whose unsigned fast-path
sum `ppos + k` does not wrap modulo 2^32, `iterator_forward` advances
to the valid iterator at `n + k` when that stays within the live bytes
(pchar, ppos, pos all within the piece sequence), and otherwise the end
is crossed: `pchar` becomes NULL and `pos` stops at `length(b)` — in
particular `pos` never exceeds `length(b)`.  The no-wrap proviso is
forced by the counterexample. -/
theorem iterator_forward_no_wrap (b : ds_append_buffer) (n k : Nat)
    (it : ds_append_buffer_iterator) (hWF : WF b) (hit : IterAt b n it)
    (hk : it.ppos + k < U32) :
    (n + k ≤ b.length →
      IterAt b (n + k) (ds_append_buffer_iterator_forward it k)) ∧
    (b.length < n + k →
      (ds_append_buffer_iterator_forward it k).pcur = none ∧
      (ds_append_buffer_iterator_forward it k).pos = b.length ∧
      (ds_append_buffer_iterator_forward it k).pos ≤ b.length) := by
  have h := IterAt_forward hWF hit k hk
  refine ⟨h.1, fun hgt => ?_⟩
  obtain ⟨h1, h2⟩ := h.2 hgt
  exact ⟨h1, h2, le_of_eq h2⟩

/-- Witness for C8: advancing the concrete three-byte buffer's iterator
by two from the start. -/
theorem iterator_forward_no_wrap_witness :
    (0 + 2 ≤ exampleBuf.length →
      IterAt exampleBuf (0 + 2) (ds_append_buffer_iterator_forward
        (ds_append_buffer_iterator_init exampleBuf) 2)) ∧
    (exampleBuf.length < 0 + 2 →
      (ds_append_buffer_iterator_forward
        (ds_append_buffer_iterator_init exampleBuf) 2).pcur = none ∧
      (ds_append_buffer_iterator_forward
        (ds_append_buffer_iterator_init exampleBuf) 2).pos =
        exampleBuf.length ∧
      (ds_append_buffer_iterator_forward
        (ds_append_buffer_iterator_init exampleBuf) 2).pos ≤
        exampleBuf.length) :=
  iterator_forward_no_wrap exampleBuf 0 2
    (ds_append_buffer_iterator_init exampleBuf) (by decide)
    (iterator_init_IterAt (by decide)) (by decide)

/-- Counterexample to C8 as stated: on a two-byte buffer, after
advancing to position 1, a further `iterator_forward` by `2^32 - 1`
(which crosses the end) wraps the fast-path bound check: `pchar` stays
non-NULL (it is moved 2^32 - 1 bytes past the piece, `poff = 2^32`),
`ppos` wraps to 0 and `pos` wraps to 0 instead of stopping at
`length`. -/
theorem claim8_counterexample :
    twoBuf.length = 2 ∧
    (ds_append_buffer_iterator_forward (ds_append_buffer_iterator_forward
      (ds_append_buffer_iterator_init twoBuf) 1)
      4294967295).pcur.isSome = true ∧
    (ds_append_buffer_iterator_forward (ds_append_buffer_iterator_forward
      (ds_append_buffer_iterator_init twoBuf) 1) 4294967295).pos = 0 ∧
    (ds_append_buffer_iterator_forward (ds_append_buffer_iterator_forward
      (ds_append_buffer_iterator_init twoBuf) 1) 4294967295).poff =
      4294967296 := by
  refine ⟨by decide, by decide, by decide, by decide⟩

/-- Claim C10: `append(b, data, n)` on a well-formed buffer never
alters the bytes already stored: `first_offset` is unchanged and the
live byte sequence after the call is exactly the old sequence followed
by the returned-count prefix of the input — so every logical offset
below the old length reads the same byte, and the appended bytes land
at offsets `[old length, old length + returned)`. -/
theorem append_frame_preserves_contents (b : ds_append_buffer)
    (data : List Nat) (a : Option Nat) (hWF : WF b) :
    (ds_append_buffer_append b data a).1.first_offset = b.first_offset ∧
    (ds_append_buffer_append b data a).2 ≤ data.length ∧
    contents (ds_append_buffer_append b data a).1 =
      contents b ++ data.take (ds_append_buffer_append b data a).2 ∧
    (contents b).length = b.length := by
  obtain ⟨hm, hfo, hpb, hsum', hwf, hhead, hlen⟩ :=
    ds_append_buffer_append_spec b data a
      (ds_append_buffer_append b data a).1
      (ds_append_buffer_append b data a).2 hWF.1 rfl
  refine ⟨hfo, hm, ?_, contents_length hWF⟩
  unfold contents
  rw [hpb, hfo,
    List.drop_append_of_le_length (by
      rw [piecesBytes_length (piecesWF_datalen_le hWF)]
      have := hWF.2.1
      omega)]

/-- Witness for C10 at a concrete buffer and input. -/
theorem append_frame_preserves_contents_witness :
    (ds_append_buffer_append exampleBuf [8, 9] none).1.first_offset =
      exampleBuf.first_offset ∧
    (ds_append_buffer_append exampleBuf [8, 9] none).2 ≤
      ([8, 9] : List Nat).length ∧
    contents (ds_append_buffer_append exampleBuf [8, 9] none).1 =
      contents exampleBuf ++
        ([8, 9] : List Nat).take
          (ds_append_buffer_append exampleBuf [8, 9] none).2 ∧
    (contents exampleBuf).length = exampleBuf.length :=
  append_frame_preserves_contents exampleBuf [8, 9] none (by decide)

end LibDS
